import Mathlib

/-!
Verification of the resume-matching core of `app.py`.

The development shallow-embeds the pure logic of the source file:
  * `extract_keywords`    (app.py lines 52-68)
  * `calculate_match_score` (app.py lines 70-121), including an exact model
    of the IEEE-754 double-precision rounding performed by the Python
    arithmetic (`int((m/n)*100)` and the weighted overall sum),
  * `extract_text`        (app.py lines 32-50), with the external document
    libraries abstracted as outcome parameters,
  * the tailoring post-processing (app.py line 160),
  * the chat prompt assembly and input validation (app.py lines 210-234).

Unicode caveat, recorded once here: the model treats characters the way the
source's regexes treat ASCII.  `str.lower` is modelled character-wise via
`Char.toLower` (ASCII case mapping), the regex classes `\w`, `\d`, `\s` are
modelled by their ASCII subsets.  All concrete inputs appearing in theorems
are ASCII, where the model agrees with Python exactly.
-/

namespace AppSpec

/-! ## Characters -/

/-- The regex class `[a-z]`. -/
def isLowerAlpha (c : Char) : Bool := 'a' ≤ c && c ≤ 'z'

/-- The regex class `\d` (ASCII subset). -/
def isDigitChar (c : Char) : Bool := '0' ≤ c && c ≤ '9'

/-- The regex class `\w` = `[A-Za-z0-9_]` (ASCII subset), used by the `\b`
word-boundary assertions of `re.findall(r'\b[a-z]+\b', text)`. -/
def isWordChar (c : Char) : Bool :=
  isLowerAlpha c || ('A' ≤ c && c ≤ 'Z') || isDigitChar c || c = '_'

/-- The regex class `\s` and the default `str.strip` set (ASCII subset). -/
def isSpaceChar (c : Char) : Bool :=
  c = ' ' || c = '\t' || c = '\n' || c = '\x0d' || c = '\x0b' || c = '\x0c'

/-! ## `re.findall(r'\b[a-z]+\b', text)` (app.py line 66)

A match of `\b[a-z]+\b` is a maximal run of `[a-z]` letters whose
neighbouring characters (when they exist) are not word characters: the run
characters are themselves word characters, so the `\b` assertions hold
exactly at a transition from a non-word character (or the text edge).
Shrinking the greedy `[a-z]+` cannot rescue a failed match (the following
character would then be a lowercase letter, which fails the closing `\b`),
and restarting the scan inside a failed run meets the same right context,
so the scanner may resume after the run; the recursion below does exactly
that, in left-to-right order. -/

/-- Scanner for `\b[a-z]+\b`.  `prev` is the character preceding the
current position (`none` at the start of the text).  When a run is emitted
or rejected, the scan resumes after the run; the `prev` passed on is `c`,
the first run character, which has the same `isWordChar` value (`true`) as
the actual last run character, the only property ever consulted.  The
`fuel` argument only makes the recursion structural (each step consumes at
least one character, so `fuel = l.length` always suffices). -/
def findallRunsF : ℕ → Option Char → List Char → List (List Char)
  | 0, _, _ => []
  | fuel + 1, prev, l =>
    match l with
    | [] => []
    | c :: rest =>
      if isLowerAlpha c then
        let run := c :: rest.takeWhile isLowerAlpha
        let rest2 := rest.dropWhile isLowerAlpha
        let leftOk := match prev with
          | none => true
          | some p => !isWordChar p
        let rightOk := match rest2.head? with
          | none => true
          | some n => !isWordChar n
        (if leftOk && rightOk then [run] else []) ++ findallRunsF fuel (some c) rest2
      else
        findallRunsF fuel (some c) rest

/-- All matches of `\b[a-z]+\b`, in order. -/
def findallRuns (prev : Option Char) (l : List Char) : List (List Char) :=
  findallRunsF l.length prev l

/-- The stop-word set of `extract_keywords` (app.py lines 56-63),
transcribed verbatim. -/
def stop_words : List String :=
  ["the", "a", "an", "and", "or", "but", "in", "on", "at", "to", "for",
   "of", "with", "by", "from", "as", "is", "was", "are", "been", "be",
   "have", "has", "do", "does", "did", "will", "would", "could", "should",
   "may", "might", "must", "can", "this", "that", "these", "those", "i",
   "you", "he", "she", "it", "we", "they", "what", "which", "who", "when",
   "where", "why", "how", "all", "each", "every", "both", "few", "more",
   "most", "other", "some", "such", "no", "nor", "not", "only", "own",
   "same", "so", "than", "too", "very"]

/-- `extract_keywords` (app.py lines 52-68): lower-case, find all
`\b[a-z]+\b` matches, keep words of length at least 3 that are not
stop-words, duplicates preserved in match order. -/
def extract_keywords (text : String) : List String :=
  let lowered := text.data.map Char.toLower
  let words := (findallRuns none lowered).map (fun cs => String.mk cs)
  words.filter (fun w => 3 ≤ w.length && !(stop_words.contains w))

/-! ## IEEE-754 double-precision arithmetic, modelled exactly over `ℚ`

CPython evaluates `int((m/n)*100)`, `(years/10)*100` and the weighted
overall sum in IEEE-754 binary64.  Each operation (int/int true division,
float multiplication, float addition) produces the correctly rounded
(round-to-nearest, ties-to-even) value of the exact rational result.  All
quantities reaching these operations in the source are non-negative and —
except on the experience path, which gets an explicit overflow guard —
far inside the normal range, so the unbounded-exponent rounding below is
exact for them.  Integer operands of float operations (`100`, the
sub-scores) are below `2^53` and convert exactly. -/

/-- `⌊log₂ n⌋` (and `0` at `0`); structurally recursive on a fuel, with
`fuel = n` always sufficient. -/
def nlog2F : ℕ → ℕ → ℕ
  | 0, _ => 0
  | fuel + 1, n => if n ≤ 1 then 0 else nlog2F fuel (n / 2) + 1

/-- `⌊log₂ n⌋` (and `0` at `0`). -/
def nlog2 (n : ℕ) : ℕ := nlog2F n n

/-- `2 ^ z` over `ℚ`, computed through `Nat.pow` (which evaluates fast);
equal to the `zpow` power of two. -/
def qpow2 (z : ℤ) : ℚ :=
  if 0 ≤ z then ((2 ^ z.toNat : ℕ) : ℚ) else (((2 ^ (-z).toNat : ℕ) : ℚ))⁻¹

/-- `⌊log₂ q⌋` for positive rationals: the candidate
`log2 num - log2 den` overshoots by at most one and never undershoots,
so one downward correction suffices. -/
def ilog2q (q : ℚ) : ℤ :=
  let c : ℤ := (nlog2 q.num.natAbs : ℤ) - (nlog2 q.den : ℤ)
  if q < qpow2 c then c - 1 else c

/-- Round a positive rational to the nearest (ties-to-even) element of the
binade grid `{n · 2^(e-52)}` where `2^e ≤ q < 2^(e+1)`: exactly binary64
rounding for values in the normal range. -/
def roundPos (q : ℚ) : ℚ :=
  let e := ilog2q q
  let m : ℚ := q * qpow2 (52 - e)
  let n0 : ℤ := ⌊m⌋
  let r : ℚ := m - n0
  let n : ℤ :=
    if r < 1 / 2 then n0
    else if 1 / 2 < r then n0 + 1
    else if n0 % 2 = 0 then n0 else n0 + 1
  (n : ℚ) * qpow2 (e - 52)

/-- Round-to-nearest for binary64 (sign-symmetric; only non-negative
values occur in this development). -/
def roundNear (q : ℚ) : ℚ :=
  if q = 0 then 0 else if q < 0 then -roundPos (-q) else roundPos q

/-- Largest finite binary64 value. -/
def maxFloat : ℚ := (((2 ^ 53 - 1) * 2 ^ 971 : ℕ) : ℚ)

/-- Float (and int/int true-) division; overflow impossible at its use
sites outside the experience path. -/
def fdiv (a b : ℚ) : ℚ := roundNear (a / b)

/-- Float multiplication. -/
def fmul (a b : ℚ) : ℚ := roundNear (a * b)

/-- Float addition. -/
def fadd (a b : ℚ) : ℚ := roundNear (a + b)

/-- Python int/int true division: raises `OverflowError` (modelled as
`none`) when the rounded quotient exceeds the binary64 range. -/
def fdivChecked (a b : ℚ) : Option ℚ :=
  let r := roundNear (a / b)
  if maxFloat < r then none else some r

/-- Float multiplication whose result is immediately fed to `int(...)` in
the source: on overflow IEEE yields `inf` and `int(inf)` raises
`OverflowError`; both are modelled as `none`. -/
def fmulChecked (a b : ℚ) : Option ℚ :=
  let r := roundNear (a * b)
  if maxFloat < r then none else some r

/-- `int(x)` for a float `x`: truncation toward zero. -/
def pytrunc (q : ℚ) : ℤ := if 0 ≤ q then ⌊q⌋ else -⌊-q⌋

/-- The double nearest the literal `0.4`. -/
def lit04 : ℚ := roundNear (4 / 10)

/-- The double nearest the literal `0.3`. -/
def lit03 : ℚ := roundNear (3 / 10)

/-- The double nearest the literal `0.2`. -/
def lit02 : ℚ := roundNear (2 / 10)

/-- The double nearest the literal `0.1`. -/
def lit01 : ℚ := roundNear (1 / 10)

/-- The `int((m / n) * 100)` pattern shared by the keywords, skills and
tone sub-scores (app.py lines 84, 97, 113). -/
def ratioPct (m n : ℕ) : ℤ := pytrunc (fmul (fdiv (m : ℚ) (n : ℚ)) 100)

/-! ## `calculate_match_score` (app.py lines 70-121) -/

/-- The technical-skill catalog (app.py lines 87-91), transcribed
verbatim; note `"ci"` and `"cd"` have length two. -/
def tech_skills : List String :=
  ["python", "java", "javascript", "sql", "aws", "azure", "gcp",
   "react", "django", "flask", "node", "docker", "kubernetes",
   "machine", "learning", "data", "analysis", "analytics", "api",
   "rest", "graphql", "devops", "ci", "cd", "git", "linux", "windows",
   "agile", "scrum", "jira", "mongodb", "postgresql", "redis"]

/-- The professional-language catalog (app.py lines 109-111), transcribed
verbatim; fourteen entries. -/
def professional_terms : List String :=
  ["achieved", "improved", "led", "managed", "developed",
   "implemented", "designed", "created", "optimized", "increased",
   "delivered", "contributed", "collaborated", "proven"]

/-- Single-pass duplicate removal (first occurrences kept), with an
accumulator of the elements already seen. -/
def dedupAcc (seen : List String) : List String → List String
  | [] => []
  | w :: rest =>
    if seen.contains w then dedupAcc seen rest
    else w :: dedupAcc (w :: seen) rest

/-- Duplicate removal, keeping first occurrences. -/
def pydedup (l : List String) : List String := dedupAcc [] l

/-- `set(jd_keywords)` (app.py line 76): the Python sets are consumed only
through `len` and intersection sizes, so a duplicate-free list is a
faithful model. -/
def jd_unique (jd_text : String) : List String := pydedup (extract_keywords jd_text)

/-- `set(resume_keywords)` (app.py line 77). -/
def resume_set (resume_text : String) : List String :=
  pydedup (extract_keywords resume_text)

/-- `jd_unique & resume_set` (app.py line 83). -/
def matched_keywords (resume_text jd_text : String) : List String :=
  (jd_unique jd_text).filter (fun w => (resume_set resume_text).contains w)

/-- `keywords_match` (app.py line 84). -/
def keywords_match (resume_text jd_text : String) : ℤ :=
  ratioPct (matched_keywords resume_text jd_text).length (jd_unique jd_text).length

/-- `jd_skills = jd_unique & tech_skills` (app.py line 93). -/
def jd_skills (jd_text : String) : List String :=
  (jd_unique jd_text).filter (fun w => tech_skills.contains w)

/-- `resume_skills = resume_set & tech_skills` (app.py line 94). -/
def resume_skills (resume_text : String) : List String :=
  (resume_set resume_text).filter (fun w => tech_skills.contains w)

/-- `matched_skills = jd_skills & resume_skills` (app.py line 95). -/
def matched_skills (resume_text jd_text : String) : List String :=
  (jd_skills jd_text).filter (fun w => (resume_skills resume_text).contains w)

/-- `skills_match` (app.py line 97). -/
def skills_match (resume_text jd_text : String) : ℤ :=
  if (jd_skills jd_text).isEmpty then 0
  else ratioPct (matched_skills resume_text jd_text).length (jd_skills jd_text).length

/-- Numeric value of a digit run. -/
def digitsVal (ds : List Char) : ℕ :=
  ds.foldl (fun a c => 10 * a + (c.toNat - '0'.toNat)) 0

/-- Case-insensitive check that the text starts with `year` or `yrs`: the
tail `(?:years?|yrs)` of the experience regex (the optional `s` of
`years?` affects only the match length, never the captured digits). -/
def yearsKeywordAt (l : List Char) : Bool :=
  let low := (l.take 4).map Char.toLower
  "year".data.isPrefixOf low || "yrs".data.isPrefixOf low

/-- First match of `re.findall(r'(\d+)\s*(?:years?|yrs)', text, re.IGNORECASE)`
(app.py line 101).  The scan is left to right; at a failed digit run
neither shrinking the greedy `\d+`/`\s*` (the next character is then still
a digit/space, not `y`) nor restarting inside the run (same right context)
can succeed, so the scanner resumes after the run. -/
def findFirstYearsF : ℕ → List Char → Option ℕ
  | 0, _ => none
  | fuel + 1, l =>
    match l with
    | [] => none
    | c :: rest =>
      if isDigitChar c then
        let ds := c :: rest.takeWhile isDigitChar
        let rest2 := rest.dropWhile isDigitChar
        let afterWs := rest2.dropWhile isSpaceChar
        if yearsKeywordAt afterWs then some (digitsVal ds)
        else findFirstYearsF fuel rest2
      else
        findFirstYearsF fuel rest

/-- First experience-regex match of the text (`fuel = l.length` is always
sufficient, as each step consumes at least one character). -/
def findFirstYears (l : List Char) : Option ℕ :=
  findFirstYearsF l.length l

/-- `min(int((years / 10) * 100), 100)` (app.py line 106), with the two
possible `OverflowError`s (huge `years / 10`, or `int(inf)` after the
multiplication) surfaced as `none`. -/
def expFromYears (y : ℕ) : Option ℤ := do
  let d ← fdivChecked (y : ℚ) 10
  let p ← fmulChecked d 100
  pure (min (pytrunc p) 100)

/-- `experience_match` (app.py lines 100-106): `0` without a regex match
or when the captured integer is `0`. -/
def experience_match (resume_text : String) : Option ℤ :=
  match findFirstYears resume_text.data with
  | none => some 0
  | some y => if 0 < y then expFromYears y else some 0

/-- `prof_in_resume = resume_set & professional_terms` (app.py line 112). -/
def prof_in_resume (resume_text : String) : List String :=
  (resume_set resume_text).filter (fun w => professional_terms.contains w)

/-- `tone_match` (app.py line 113). -/
def tone_match (resume_text : String) : ℤ :=
  ratioPct (prof_in_resume resume_text).length (max 1 professional_terms.length)

/-- The overall weighted sum (app.py lines 116-117), with Python's
left-associated float additions. -/
def overall_score (sm em km tm : ℤ) : ℤ :=
  pytrunc (fadd (fadd (fadd (fmul (sm : ℚ) lit04) (fmul (em : ℚ) lit03))
      (fmul (km : ℚ) lit02)) (fmul (tm : ℚ) lit01))

/-- The summary f-string (app.py line 119). -/
def match_summary (km sm : ℤ) : String :=
  "Your resume matches " ++ toString km ++ "% of job keywords with "
    ++ toString sm ++ "% skill alignment."

/-- `calculate_match_score` (app.py lines 70-121).  `none` models the
`OverflowError` escaping from the experience computation (the source
computes the keyword and skill scores before it; as they are effect-free
the reordering below is unobservable). -/
def calculate_match_score (resume_text jd_text : String) :
    Option (ℤ × ℤ × ℤ × ℤ × String) :=
  if (jd_unique jd_text).isEmpty then some (0, 0, 0, 0, "Unable to analyze")
  else
    match experience_match resume_text with
    | none => none
    | some em =>
      let km := keywords_match resume_text jd_text
      let sm := skills_match resume_text jd_text
      let tm := tone_match resume_text
      some (overall_score sm em km tm, sm, em, km, match_summary km sm)

/-! ## `extract_text` (app.py lines 32-50)

The bodies of the three suffix branches call external libraries (PyMuPDF
page extraction, python-docx paragraphs, UTF-8 decoding); they are
abstracted as outcome parameters: `.ok t` when the library produced text
`t`, `.error e` when it (or the preceding `seek`) raised.  The source
wraps the whole dispatch in `try/except Exception`, returning `""` from
the handler, so no failure escapes. -/

/-- `extract_text` (app.py lines 32-50). -/
def extract_text (pdfRes docxRes txtRes : Except String String)
    (filename : String) : String :=
  if filename.endsWith ".pdf" then
    match pdfRes with
    | .ok t => t
    | .error _ => ""
  else if filename.endsWith ".docx" then
    match docxRes with
    | .ok t => t
    | .error _ => ""
  else if filename.endsWith ".txt" then
    match txtRes with
    | .ok t => t
    | .error _ => ""
  else ""

/-! ## Tailoring response post-processing (app.py line 160) -/

/-- The backtick character. -/
def tick : Char := Char.ofNat 96

/-- `str.replace('```', '')` (app.py line 160): delete every
non-overlapping occurrence of three backticks, scanning left to right
(`fuel = l.length` is always sufficient). -/
def removeTicksF : ℕ → List Char → List Char
  | 0, _ => []
  | fuel + 1, l =>
    match l with
    | [] => []
    | c :: rest =>
      if c = tick ∧ rest.take 2 = [tick, tick] then removeTicksF fuel (rest.drop 2)
      else c :: removeTicksF fuel rest

/-- `str.replace('```', '')` on a character list. -/
def removeTicks (l : List Char) : List Char :=
  removeTicksF l.length l

/-- Whether three consecutive backticks occur anywhere. -/
def hasTicks (l : List Char) : Bool :=
  match l with
  | [] => false
  | c :: rest =>
    (decide (c = tick) && decide (rest.take 2 = [tick, tick])) || hasTicks rest

/-- `str.strip()` (ASCII whitespace). -/
def pyStrip (s : String) : String :=
  String.mk (((s.data.dropWhile isSpaceChar).reverse.dropWhile isSpaceChar).reverse)

/-- `response.text.replace('```', '').strip()` (app.py line 160). -/
def customize_postprocess (raw : String) : String :=
  pyStrip (String.mk (removeTicks raw.data))

/-! ## Chat endpoint (app.py lines 210-234) -/

/-- One prior conversation turn, `{role, content}`. -/
structure Turn where
  role : String
  content : String
  deriving DecidableEq, Repr

/-- `str.title()` (ASCII): a cased character is upper-cased when the
previous character is not cased, lower-cased otherwise. -/
def pyTitleAux : Bool → List Char → List Char
  | _, [] => []
  | prevCased, c :: rest =>
    (if prevCased then c.toLower else c.toUpper) :: pyTitleAux c.isAlpha rest

/-- `str.title()` on a whole string. -/
def pyTitle (s : String) : String := String.mk (pyTitleAux false s.data)

/-- `f"{turn['role'].title()}: {turn['content']}\n"` (app.py line 233). -/
def renderTurn (t : Turn) : String :=
  pyTitle t.role ++ ": " ++ t.content ++ "\n"

/-- The chat system prompt (app.py lines 224-229). -/
def chat_system_prompt (resume_text : String) : String :=
  "You are a helpful resume coach. Answer questions about this resume and provide actionable feedback.\n\n**Resume:**\n"
    ++ resume_text ++ "\n\nBe concise, professional, and specific."

/-- The full chat prompt (app.py lines 231-234): the transcript loop is
the `foldl`, each iteration appending one rendered turn. -/
def chat_full_prompt (resume_text : String) (history : List Turn)
    (user_message : String) : String :=
  (history.foldl (fun acc t => acc ++ renderTurn t)
      (chat_system_prompt resume_text ++ "\n\nConversation:\n"))
    ++ ("\nUser: " ++ user_message ++ "\nAssistant:")

/-- Outcome of the `/chat` handler before the backend call: the 500
model-unavailable error, the 400 missing-data error, or a call to the
generation backend with the assembled prompt. -/
inductive ChatResult where
  | modelUnavailable : ChatResult
  | inputError : ChatResult
  | generate : String → ChatResult
  deriving DecidableEq, Repr

/-- Python truthiness of `data.get(field)` for a string field: falsy when
the key is absent (`None`) or the string is empty. -/
def falsy (v : Option String) : Bool :=
  match v with
  | none => true
  | some s => s.isEmpty

/-- `chat_with_bot` (app.py lines 210-234) up to the backend call:
`resume_text = data.get('resume_text')`, `history = data.get('history', [])`,
`user_message = data.get('message')`, then the model and missing-data
checks. -/
def chat_with_bot (modelOk : Bool) (resume_text : Option String)
    (history : Option (List Turn)) (message : Option String) : ChatResult :=
  if !modelOk then .modelUnavailable
  else
    let h := history.getD []
    if falsy resume_text || falsy message then .inputError
    else .generate (chat_full_prompt (resume_text.getD "") h (message.getD ""))

/-! ## Specification-side definitions

These follow the specification's wording (not the source) and exist to be
compared with the source-derived definitions above. -/

/-- Maximal `[a-z]` runs with no boundary requirement: the tokenization
the specification describes, where every non-letter character is a
separator. -/
def lowerRunsPlainF : ℕ → List Char → List (List Char)
  | 0, _ => []
  | fuel + 1, l =>
    match l with
    | [] => []
    | c :: rest =>
      if isLowerAlpha c then
        (c :: rest.takeWhile isLowerAlpha) :: lowerRunsPlainF fuel (rest.dropWhile isLowerAlpha)
      else lowerRunsPlainF fuel rest

/-- All maximal `[a-z]` runs (`fuel = l.length` is always sufficient). -/
def lowerRunsPlain (l : List Char) : List (List Char) :=
  lowerRunsPlainF l.length l

/-- The keyword extraction the specification describes for C2: lower-case,
treat every non-letter as a separator, keep length-3-plus non-stop-words. -/
def spec_keywords (text : String) : List String :=
  let lowered := text.data.map Char.toLower
  ((lowerRunsPlain lowered).map (fun cs => String.mk cs)).filter
    (fun w => 3 ≤ w.length && !(stop_words.contains w))

def wordBlocksF : ℕ → List Char → List (List Char)
  | 0, _ => []
  | fuel + 1, l =>
    match l with
    | [] => []
    | c :: rest =>
      if isWordChar c then
        (c :: rest.takeWhile isWordChar) :: wordBlocksF fuel (rest.dropWhile isWordChar)
      else wordBlocksF fuel rest

/-- Maximal runs of word characters (the `\w`-blocks of the text;
`fuel = l.length` is always sufficient). -/
def wordBlocks (l : List Char) : List (List Char) :=
  wordBlocksF l.length l

/-- Whether the character before the current scan position is a word
character (`false` at the start of the text). -/
def prevWord : Option Char → Bool
  | none => false
  | some p => isWordChar p

/-- The `\w`-blocks that consist purely of lowercase letters: the token
stream the corrected claim describes. -/
def goodBlocks (l : List Char) : List (List Char) :=
  (wordBlocks l).filter (fun b => b.all isLowerAlpha)

/-- The corrected tokenization: a maximal `\w`-block yields a token
exactly when it consists purely of lowercase letters; blocks containing a
digit or underscore are dropped whole. -/
def spec_keywords_amended (text : String) : List String :=
  let lowered := text.data.map Char.toLower
  (((wordBlocks lowered).filter (fun b => b.all isLowerAlpha)).map
      (fun cs => String.mk cs)).filter
    (fun w => 3 ≤ w.length && !(stop_words.contains w))

/-- The percentage formula as the specification words it:
`|inter| / |whole| * 100` truncated toward zero, in exact arithmetic. -/
def spec_pct (m n : ℕ) : ℕ := 100 * m / n

/-- The overall formula as the specification words it:
`truncate(skills*0.4 + experience*0.3 + keywords*0.2 + tone*0.1)` in exact
arithmetic. -/
def spec_overall (s e k t : ℤ) : ℤ :=
  pytrunc ((s : ℚ) * (4 / 10) + (e : ℚ) * (3 / 10) + (k : ℚ) * (2 / 10)
    + (t : ℚ) * (1 / 10))

/-! ## Concrete inputs used in counterexamples -/

/-- A job description whose keyword set has exactly 50 elements: the whole
skill catalog (of which `ci` and `cd` fall to the length-3 filter, leaving
31 keywords) plus 19 filler words. -/
def jdFifty : String :=
  "python java javascript sql aws azure gcp react django flask node docker kubernetes machine learning data analysis analytics api rest graphql devops ci cd git linux windows agile scrum jira mongodb postgresql redis aaa aab aac aad aae aaf aag aah aai aaj aak aal aam aan aao aap aaq aar aas"

/-- A resume hitting sub-scores skills = 3, experience = 50, keywords = 2,
tone = 14 against `jdFifty`. -/
def resumeWeighted : String := "Python achieved improved 5 years"

/-- A resume matching exactly 29 of the 50 keywords of `jdFifty` (the 19
fillers and ten skills). -/
def resumeTwentyNine : String :=
  "aaa aab aac aad aae aaf aag aah aai aaj aak aal aam aan aao aap aaq aar aas python java javascript sql aws azure gcp react django flask"

/-- A resume whose first experience-regex match captures `10 ^ 309`:
dividing it by ten yields `10 ^ 308`, whose product with `100` overflows
binary64, so `int(...)` raises `OverflowError`. -/
def resumeHugeYears : String := String.mk ('1' :: List.replicate 309 '0') ++ " years"

/-! ## Rounding error bounds

`roundNear` never changes a positive value by more than one part in
`2^52`: the returned grid point differs from the input by less than one
grid step `2^(e-52)`, and the grid step is at most `q * 2^(-52)` because
`2^e ≤ q`. -/

/-- The unit roundoff `2^(-52)` used in the error bounds. -/
def eps : ℚ := 1 / 2 ^ 52

theorem eps_pos : 0 < eps := by norm_num [eps]

theorem eps_lt_one : eps < 1 := by norm_num [eps]

theorem zpow_natCast_eq (k : ℕ) : (2 : ℚ) ^ ((k : ℕ) : ℤ) = ((2 ^ k : ℕ) : ℚ) := by
  rw [zpow_natCast]
  push_cast
  ring

theorem qpow2_eq (z : ℤ) : qpow2 z = (2 : ℚ) ^ z := by
  unfold qpow2
  by_cases h : 0 ≤ z
  · simp only [h, if_true]
    rw [← zpow_natCast_eq]
    congr 1
    omega
  · simp only [h, if_false]
    rw [← zpow_natCast_eq, ← zpow_neg]
    congr 1
    omega

theorem nlog2F_le (fuel : ℕ) : ∀ n, n ≠ 0 → n ≤ fuel → 2 ^ nlog2F fuel n ≤ n := by
  induction fuel with
  | zero => intro n hn hf; omega
  | succ fuel ih =>
    intro n hn hf
    unfold nlog2F
    by_cases h1 : n ≤ 1
    · simp only [h1, if_true]
      omega
    · simp only [h1, if_false]
      have ih2 := ih (n / 2) (by omega) (by omega)
      rw [pow_succ]
      omega

theorem lt_nlog2F (fuel : ℕ) : ∀ n, n ≤ fuel → n < 2 ^ (nlog2F fuel n + 1) := by
  induction fuel with
  | zero =>
    intro n hf
    interval_cases n
    simp [nlog2F]
  | succ fuel ih =>
    intro n hf
    unfold nlog2F
    by_cases h1 : n ≤ 1
    · simp only [h1, if_true]
      omega
    · simp only [h1, if_false]
      have ih2 := ih (n / 2) (by omega)
      rw [pow_succ]
      omega

theorem nlog2_le (n : ℕ) (hn : n ≠ 0) : 2 ^ nlog2 n ≤ n := nlog2F_le n n hn le_rfl

theorem lt_nlog2 (n : ℕ) : n < 2 ^ (nlog2 n + 1) := lt_nlog2F n n le_rfl

theorem ilog2q_le (q : ℚ) (hq : 0 < q) : (2 : ℚ) ^ ilog2q q ≤ q := by
  have hnum : 0 < q.num := Rat.num_pos.mpr hq
  have habs : q.num.natAbs ≠ 0 := by
    simpa [Int.natAbs_eq_zero] using hnum.ne'
  have h1 : (2 : ℕ) ^ nlog2 q.num.natAbs ≤ q.num.natAbs := nlog2_le _ habs
  have h2 : q.den < 2 ^ (nlog2 q.den + 1) := lt_nlog2 _
  have hdenQ : (0 : ℚ) < (q.den : ℚ) := by exact_mod_cast q.pos
  have hnumCast : ((q.num.natAbs : ℕ) : ℚ) = (q.num : ℚ) := by
    rw [Int.cast_natAbs]
    exact_mod_cast abs_of_nonneg hnum.le
  have key2 : (2 : ℚ) ^ ((nlog2 q.num.natAbs : ℤ) - (nlog2 q.den : ℤ) - 1) * (q.den : ℚ)
      < (q.num : ℚ) := by
    have hc : ((q.den : ℚ)) < (2 : ℚ) ^ ((nlog2 q.den : ℤ) + 1) := by
      have hcast : ((q.den : ℕ) : ℚ) < ((2 ^ (nlog2 q.den + 1) : ℕ) : ℚ) := by exact_mod_cast h2
      have hexp1 : ((nlog2 q.den : ℤ) + 1) = ((nlog2 q.den + 1 : ℕ) : ℤ) := by push_cast; ring
      rw [hexp1, zpow_natCast_eq]
      exact hcast
    have step1 : (2 : ℚ) ^ ((nlog2 q.num.natAbs : ℤ) - (nlog2 q.den : ℤ) - 1) * (q.den : ℚ)
        < (2 : ℚ) ^ ((nlog2 q.num.natAbs : ℤ) - (nlog2 q.den : ℤ) - 1)
          * (2 : ℚ) ^ ((nlog2 q.den : ℤ) + 1) :=
      mul_lt_mul_of_pos_left hc (by positivity)
    have step2 : (2 : ℚ) ^ ((nlog2 q.num.natAbs : ℤ) - (nlog2 q.den : ℤ) - 1)
          * (2 : ℚ) ^ ((nlog2 q.den : ℤ) + 1) ≤ (q.num : ℚ) := by
      rw [← zpow_add₀ (two_ne_zero)]
      have hexp : (nlog2 q.num.natAbs : ℤ) - (nlog2 q.den : ℤ) - 1 + ((nlog2 q.den : ℤ) + 1)
          = (nlog2 q.num.natAbs : ℤ) := by ring
      rw [hexp, zpow_natCast_eq, ← hnumCast]
      exact_mod_cast h1
    exact lt_of_lt_of_le step1 step2
  have key : (2 : ℚ) ^ ((nlog2 q.num.natAbs : ℤ) - (nlog2 q.den : ℤ) - 1) < q := by
    have hdiv := (lt_div_iff₀ hdenQ).mpr key2
    rwa [Rat.num_div_den q] at hdiv
  unfold ilog2q
  simp only [qpow2_eq]
  by_cases h : q < (2 : ℚ) ^ ((nlog2 q.num.natAbs : ℤ) - (nlog2 q.den : ℤ))
  · simpa [h] using key.le
  · simpa [h] using not_lt.mp h

theorem roundPos_bounds (q : ℚ) (hq : 0 < q) :
    q - q * eps ≤ roundPos q ∧ roundPos q ≤ q + q * eps := by
  have he : (2 : ℚ) ^ ilog2q q ≤ q := ilog2q_le q hq
  unfold roundPos
  simp only [qpow2_eq]
  set e := ilog2q q with hedef
  set m : ℚ := q * 2 ^ (52 - e) with hmdef
  set n0 : ℤ := ⌊m⌋ with hn0def
  set r : ℚ := m - n0 with hrdef
  set n : ℤ := if r < 1 / 2 then n0 else if 1 / 2 < r then n0 + 1
    else if n0 % 2 = 0 then n0 else n0 + 1 with hndef
  have hn_lb : n0 ≤ n := by
    rw [hndef]
    split_ifs <;> omega
  have hn_ub : n ≤ n0 + 1 := by
    rw [hndef]
    split_ifs <;> omega
  have hpow_pos : (0 : ℚ) < 2 ^ (e - 52) := by positivity
  have hmq : m * 2 ^ (e - 52) = q := by
    rw [hmdef, mul_assoc, ← zpow_add₀ (two_ne_zero : (2 : ℚ) ≠ 0)]
    norm_num
  have hsplit : (2 : ℚ) ^ (e - 52) = 2 ^ e * eps := by
    rw [show e - 52 = e + (-52 : ℤ) by ring, zpow_add₀ (two_ne_zero : (2 : ℚ) ≠ 0)]
    congr 1
    rw [eps]
    norm_num
  have hstep : (2 : ℚ) ^ (e - 52) ≤ q * eps := by
    rw [hsplit]
    exact mul_le_mul_of_nonneg_right he eps_pos.le
  constructor
  · have h1 : m - 1 < (n0 : ℚ) := Int.sub_one_lt_floor m
    have h2 : ((n0 : ℚ)) ≤ (n : ℚ) := by exact_mod_cast hn_lb
    have h3 : (m - 1) * 2 ^ (e - 52) ≤ (n0 : ℚ) * 2 ^ (e - 52) :=
      mul_le_mul_of_nonneg_right h1.le hpow_pos.le
    have h4 : (n0 : ℚ) * 2 ^ (e - 52) ≤ (n : ℚ) * 2 ^ (e - 52) :=
      mul_le_mul_of_nonneg_right h2 hpow_pos.le
    have h5 : (m - 1) * 2 ^ (e - 52) = q - 2 ^ (e - 52) := by
      rw [sub_mul, one_mul, hmq]
    linarith
  · have h1 : ((n : ℚ)) ≤ ((n0 : ℚ)) + 1 := by exact_mod_cast hn_ub
    have h2 : ((n0 : ℚ)) ≤ m := Int.floor_le m
    have h3 : (n : ℚ) * 2 ^ (e - 52) ≤ (m + 1) * 2 ^ (e - 52) :=
      mul_le_mul_of_nonneg_right (by linarith) hpow_pos.le
    have h4 : (m + 1) * 2 ^ (e - 52) = q + 2 ^ (e - 52) := by
      rw [add_mul, one_mul, hmq]
    linarith

theorem roundNear_bounds (q : ℚ) (hq : 0 ≤ q) :
    q - q * eps ≤ roundNear q ∧ roundNear q ≤ q + q * eps := by
  rcases hq.lt_or_eq with h | h
  · unfold roundNear
    rw [if_neg h.ne', if_neg (not_lt.mpr h.le)]
    exact roundPos_bounds q h
  · rw [← h]
    simp [roundNear]

theorem roundNear_nonneg (q : ℚ) (hq : 0 ≤ q) : 0 ≤ roundNear q := by
  have h := (roundNear_bounds q hq).1
  nlinarith [eps_lt_one]

theorem roundNear_le (q : ℚ) (hq : 0 ≤ q) : roundNear q ≤ q + q * eps :=
  (roundNear_bounds q hq).2

theorem roundNear_ge (q : ℚ) (hq : 0 ≤ q) : q - q * eps ≤ roundNear q :=
  (roundNear_bounds q hq).1

/-! ## Truncation and percentage-pattern lemmas -/

theorem pytrunc_eq_floor (q : ℚ) (h : 0 ≤ q) : pytrunc q = ⌊q⌋ := if_pos h

theorem pytrunc_nonneg (q : ℚ) (h : 0 ≤ q) : 0 ≤ pytrunc q := by
  rw [pytrunc_eq_floor q h]
  exact Int.floor_nonneg.mpr h

theorem eps_small : eps ≤ 1 / 1000 := by norm_num [eps]

theorem ratioPct_nonneg (m n : ℕ) : 0 ≤ ratioPct m n := by
  unfold ratioPct fmul fdiv
  apply pytrunc_nonneg
  apply roundNear_nonneg
  have h0 : (0 : ℚ) ≤ roundNear ((m : ℚ) / (n : ℚ)) :=
    roundNear_nonneg _ (by positivity)
  positivity

theorem ratioPct_le_100 (m n : ℕ) (hmn : m ≤ n) : ratioPct m n ≤ 100 := by
  rcases Nat.eq_zero_or_pos n with hn | hn
  · subst hn
    have hm : m = 0 := by omega
    subst hm
    with_unfolding_all decide
  · have hnQ : (0 : ℚ) < (n : ℚ) := by exact_mod_cast hn
    have h0 : (0 : ℚ) ≤ (m : ℚ) / (n : ℚ) := by positivity
    have hq1 : (m : ℚ) / (n : ℚ) ≤ 1 := by
      rw [div_le_one hnQ]
      exact_mod_cast hmn
    have hd := roundNear_bounds ((m : ℚ) / (n : ℚ)) h0
    have hd0 : 0 ≤ roundNear ((m : ℚ) / (n : ℚ)) := roundNear_nonneg _ h0
    set d := roundNear ((m : ℚ) / (n : ℚ)) with hddef
    have hp := roundNear_bounds (d * 100) (by positivity)
    have hp0 : 0 ≤ roundNear (d * 100) := roundNear_nonneg _ (by positivity)
    set p := roundNear (d * 100) with hpdef
    have hple : p < 101 := by nlinarith [eps_small, eps_pos]
    unfold ratioPct fmul fdiv
    rw [← hddef, ← hpdef, pytrunc_eq_floor _ hp0]
    have hfl : ⌊p⌋ < (101 : ℤ) := Int.floor_lt.mpr (by exact_mod_cast hple)
    omega

/-- The shared percentage pattern never departs from the exact truncated
percentage by more than one, and only downward (keyword sets of size up to
`2 ^ 40`; the bound is far beyond any physical input). -/
theorem ratioPct_sandwich (m n : ℕ) (h1 : 1 ≤ n) (hmn : m ≤ n) (hn : n ≤ 2 ^ 40) :
    (spec_pct m n : ℤ) - 1 ≤ ratioPct m n ∧ ratioPct m n ≤ (spec_pct m n : ℤ) := by
  have hnQ : (0 : ℚ) < (n : ℚ) := by exact_mod_cast h1
  set F : ℕ := spec_pct m n with hFdef
  set r : ℕ := (100 * m) % n with hrdef
  have hdm : n * F + r = 100 * m := by
    rw [hFdef, hrdef, spec_pct]
    exact Nat.div_add_mod (100 * m) n
  have hrn : r < n := Nat.mod_lt _ h1
  have hF100 : F ≤ 100 := by
    rw [hFdef, spec_pct]
    calc 100 * m / n ≤ 100 * n / n := Nat.div_le_div_right (by omega)
      _ = 100 := Nat.mul_div_cancel 100 h1
  have hdmQ : (n : ℚ) * (F : ℚ) + (r : ℚ) = 100 * (m : ℚ) := by exact_mod_cast hdm
  have hX : (m : ℚ) / (n : ℚ) * 100 = (F : ℚ) + (r : ℚ) / (n : ℚ) := by
    field_simp
    linarith [hdmQ]
  have h0 : (0 : ℚ) ≤ (m : ℚ) / (n : ℚ) := by positivity
  have hd := roundNear_bounds ((m : ℚ) / (n : ℚ)) h0
  have hd0 : 0 ≤ roundNear ((m : ℚ) / (n : ℚ)) := roundNear_nonneg _ h0
  set d := roundNear ((m : ℚ) / (n : ℚ)) with hddef
  have hp := roundNear_bounds (d * 100) (by positivity)
  have hp0 : 0 ≤ roundNear (d * 100) := roundNear_nonneg _ (by positivity)
  set p := roundNear (d * 100) with hpdef
  have hFQ : (0 : ℚ) ≤ (F : ℚ) := by positivity
  have hFQ100 : (F : ℚ) ≤ 100 := by exact_mod_cast hF100
  have hrQ : (0 : ℚ) ≤ (r : ℚ) := by positivity
  have hXle : (m : ℚ) / (n : ℚ) * 100 ≤ 101 := by
    rw [hX]
    have hr1 : (r : ℚ) / (n : ℚ) ≤ 1 := by
      rw [div_le_one hnQ]
      exact_mod_cast hrn.le
    push_cast
    linarith
  have hninv : (1 : ℚ) / 2 ^ 40 ≤ 1 / (n : ℚ) :=
    one_div_le_one_div_of_le hnQ (by exact_mod_cast hn)
  have hepsn : 303 * eps < 1 / (n : ℚ) := by
    have h303 : (303 : ℚ) * eps < 1 / 2 ^ 40 := by norm_num [eps]
    linarith
  have hrn1 : (r : ℚ) / (n : ℚ) ≤ 1 - 1 / (n : ℚ) := by
    rw [div_le_iff₀ hnQ, sub_mul, one_mul, div_mul_cancel₀ _ hnQ.ne']
    have : (r : ℚ) ≤ (n : ℚ) - 1 := by
      have : (r : ℚ) + 1 ≤ (n : ℚ) := by exact_mod_cast hrn
      linarith
    linarith
  constructor
  · -- lower bound: p ≥ F - 202 eps > F - 1
    have hplow : (F : ℚ) - 1 ≤ p := by
      have hXge : (F : ℚ) ≤ (m : ℚ) / (n : ℚ) * 100 := by
        rw [hX]
        have : (0 : ℚ) ≤ (r : ℚ) / (n : ℚ) := by positivity
        linarith
      nlinarith [eps_small, eps_pos, hd.1, hp.1, hd0]
    unfold ratioPct fmul fdiv
    rw [← hddef, ← hpdef, pytrunc_eq_floor _ hp0]
    have : ((F : ℤ) - 1 : ℤ) ≤ ⌊p⌋ := Int.le_floor.mpr (by push_cast; linarith)
    omega
  · -- upper bound: p < F + 1
    have hpup : p < (F : ℚ) + 1 := by
      nlinarith [eps_small, eps_pos, hd.2, hp.2, hd0, hXle, hepsn, hrn1, hX]
    unfold ratioPct fmul fdiv
    rw [← hddef, ← hpdef, pytrunc_eq_floor _ hp0]
    have : ⌊p⌋ < (F : ℤ) + 1 := Int.floor_lt.mpr (by push_cast; linarith)
    omega

set_option maxRecDepth 1000000 in
set_option maxHeartbeats 4000000 in
/-- For denominators up to 33 (the skill catalog size bounds the skill
denominator) the double-precision percentage agrees with the exact
truncated percentage at every numerator: a finite verification. -/
theorem ratioPct_small : ∀ n < 34, ∀ m < n + 1, ratioPct m n = ((100 * m) / n : ℕ) := by
  with_unfolding_all decide

/-! ## Cardinality facts for the intersection counts -/

theorem mem_dedupAcc : ∀ (l seen : List String) (x : String),
    x ∈ dedupAcc seen l → x ∉ seen ∧ x ∈ l := by
  intro l
  induction l with
  | nil =>
    intro seen x h
    simp [dedupAcc] at h
  | cons w rest ih =>
    intro seen x h
    unfold dedupAcc at h
    by_cases hc : seen.contains w
    · rw [if_pos hc] at h
      have h2 := ih seen x h
      exact ⟨h2.1, List.mem_cons_of_mem _ h2.2⟩
    · rw [if_neg hc] at h
      rcases List.mem_cons.mp h with rfl | h2
      · refine ⟨?_, List.mem_cons_self _ _⟩
        intro hk
        exact hc (by simpa using hk)
      · have h3 := ih (w :: seen) x h2
        exact ⟨fun hk => h3.1 (List.mem_cons_of_mem _ hk),
          List.mem_cons_of_mem _ h3.2⟩

theorem dedupAcc_nodup : ∀ (l seen : List String), (dedupAcc seen l).Nodup := by
  intro l
  induction l with
  | nil =>
    intro seen
    simp [dedupAcc]
  | cons w rest ih =>
    intro seen
    unfold dedupAcc
    by_cases hc : seen.contains w
    · rw [if_pos hc]
      exact ih seen
    · rw [if_neg hc]
      refine List.nodup_cons.mpr ⟨?_, ih (w :: seen)⟩
      intro hw
      exact (mem_dedupAcc rest (w :: seen) w hw).1 (List.mem_cons_self _ _)

theorem jd_unique_nodup (jd : String) : (jd_unique jd).Nodup := dedupAcc_nodup _ []

theorem resume_set_nodup (r : String) : (resume_set r).Nodup := dedupAcc_nodup _ []

/-- A duplicate-free selection out of a catalog is no longer than the
catalog. -/
theorem length_filter_contains_le (l cat : List String) (hl : l.Nodup) :
    (l.filter (fun w => cat.contains w)).length ≤ cat.length := by
  have h1 : (l.filter (fun w => cat.contains w)).Nodup := hl.filter _
  have h2 : l.filter (fun w => cat.contains w) ⊆ cat := by
    intro x hx
    have h3 := List.of_mem_filter hx
    simpa using h3
  exact (h1.subperm h2).length_le

theorem jd_skills_length_le (jd : String) : (jd_skills jd).length ≤ 33 := by
  have h := length_filter_contains_le (jd_unique jd) tech_skills (jd_unique_nodup jd)
  have h33 : tech_skills.length = 33 := rfl
  rw [h33] at h
  exact h

theorem prof_in_resume_length_le (r : String) : (prof_in_resume r).length ≤ 14 := by
  have h := length_filter_contains_le (resume_set r) professional_terms (resume_set_nodup r)
  have h14 : professional_terms.length = 14 := rfl
  rw [h14] at h
  exact h

theorem matched_keywords_le (r jd : String) :
    (matched_keywords r jd).length ≤ (jd_unique jd).length :=
  (List.filter_sublist _).length_le

theorem matched_skills_le (r jd : String) :
    (matched_skills r jd).length ≤ (jd_skills jd).length :=
  (List.filter_sublist _).length_le

/-! ## Sub-score range lemmas -/

theorem keywords_match_bounds (r jd : String) :
    0 ≤ keywords_match r jd ∧ keywords_match r jd ≤ 100 :=
  ⟨ratioPct_nonneg _ _, ratioPct_le_100 _ _ (matched_keywords_le r jd)⟩

theorem skills_match_bounds (r jd : String) :
    0 ≤ skills_match r jd ∧ skills_match r jd ≤ 100 := by
  unfold skills_match
  by_cases h : (jd_skills jd).isEmpty
  · rw [if_pos h]
    norm_num
  · rw [if_neg h]
    exact ⟨ratioPct_nonneg _ _, ratioPct_le_100 _ _ (matched_skills_le r jd)⟩

theorem tone_match_bounds (r : String) : 0 ≤ tone_match r ∧ tone_match r ≤ 100 := by
  unfold tone_match
  refine ⟨ratioPct_nonneg _ _, ratioPct_le_100 _ _ ?_⟩
  have h := prof_in_resume_length_le r
  have h14 : max 1 professional_terms.length = 14 := rfl
  rw [h14]
  exact h

theorem expFromYears_bounds (y : ℕ) (em : ℤ) (h : expFromYears y = some em) :
    0 ≤ em ∧ em ≤ 100 := by
  unfold expFromYears fdivChecked fmulChecked at h
  by_cases hc1 : maxFloat < roundNear ((y : ℚ) / 10)
  · simp [hc1] at h
  · simp only [hc1, if_false, Option.bind_eq_bind, Option.some_bind] at h
    have hd0 : 0 ≤ roundNear ((y : ℚ) / 10) := roundNear_nonneg _ (by positivity)
    by_cases hc2 : maxFloat < roundNear (roundNear ((y : ℚ) / 10) * 100)
    · simp [hc2] at h
    · simp only [hc2, if_false, Option.some_bind, Option.pure_def,
        Option.some.injEq] at h
      have hp0 : 0 ≤ roundNear (roundNear ((y : ℚ) / 10) * 100) :=
        roundNear_nonneg _ (by positivity)
      rw [← h]
      constructor
      · exact le_min (pytrunc_nonneg _ hp0) (by norm_num)
      · exact min_le_right _ _

theorem experience_match_bounds (r : String) (em : ℤ)
    (h : experience_match r = some em) : 0 ≤ em ∧ em ≤ 100 := by
  unfold experience_match at h
  cases hf : findFirstYears r.data with
  | none =>
    rw [hf] at h
    simp only [Option.some.injEq] at h
    omega
  | some y =>
    rw [hf] at h
    dsimp only at h
    by_cases hy : 0 < y
    · rw [if_pos hy] at h
      exact expFromYears_bounds y em h
    · rw [if_neg hy] at h
      simp only [Option.some.injEq] at h
      omega

/-! ## The weighted overall sum -/

theorem lit04_eq : lit04 = 3602879701896397 / 9007199254740992 := by
  have hn : lit04.num = 3602879701896397 := by with_unfolding_all decide
  have hd : lit04.den = 9007199254740992 := by with_unfolding_all decide
  rw [(Rat.num_div_den lit04).symm, hn, hd]
  norm_num

theorem lit03_eq : lit03 = 5404319552844595 / 18014398509481984 := by
  have hn : lit03.num = 5404319552844595 := by with_unfolding_all decide
  have hd : lit03.den = 18014398509481984 := by with_unfolding_all decide
  rw [(Rat.num_div_den lit03).symm, hn, hd]
  norm_num

theorem lit02_eq : lit02 = 3602879701896397 / 18014398509481984 := by
  have hn : lit02.num = 3602879701896397 := by with_unfolding_all decide
  have hd : lit02.den = 18014398509481984 := by with_unfolding_all decide
  rw [(Rat.num_div_den lit02).symm, hn, hd]
  norm_num

theorem lit01_eq : lit01 = 3602879701896397 / 36028797018963968 := by
  have hn : lit01.num = 3602879701896397 := by with_unfolding_all decide
  have hd : lit01.den = 36028797018963968 := by with_unfolding_all decide
  rw [(Rat.num_div_den lit01).symm, hn, hd]
  norm_num

/-- One weighted product `x * w` in double precision stays within
`300 eps` of the exact product with the true weight. -/
theorem fmul_weight_bounds (x w tw : ℚ) (hx0 : 0 ≤ x) (hx1 : x ≤ 100)
    (hw0 : 0 ≤ w) (htw0 : 0 ≤ tw) (htw1 : tw ≤ 1)
    (hwl : tw - eps ≤ w) (hwu : w ≤ tw + eps) :
    tw * x - 300 * eps ≤ fmul x w ∧ fmul x w ≤ tw * x + 300 * eps := by
  unfold fmul
  have hb := roundNear_bounds (x * w) (mul_nonneg hx0 hw0)
  have hxw_l : tw * x - 100 * eps ≤ x * w := by
    have h := mul_le_mul_of_nonneg_left hwl hx0
    nlinarith [eps_pos]
  have hxw_u : x * w ≤ tw * x + 100 * eps := by
    have h := mul_le_mul_of_nonneg_left hwu hx0
    nlinarith [eps_pos]
  have hxw_up : x * w ≤ 101 := by nlinarith [eps_small, eps_pos]
  have hxw_eps : x * w * eps ≤ 101 * eps :=
    mul_le_mul_of_nonneg_right hxw_up eps_pos.le
  have hxw_eps0 : 0 ≤ x * w * eps :=
    mul_nonneg (mul_nonneg hx0 hw0) eps_pos.le
  constructor <;> linarith [hb.1, hb.2]

/-- One addition of non-negative doubles below `102` stays within
`102 eps` of the exact sum. -/
theorem fadd_near (a b : ℚ) (ha : 0 ≤ a) (hb : 0 ≤ b) (hs : a + b ≤ 102) :
    a + b - 102 * eps ≤ fadd a b ∧ fadd a b ≤ a + b + 102 * eps := by
  unfold fadd
  have h2 := roundNear_bounds (a + b) (by linarith)
  have h3 : (a + b) * eps ≤ 102 * eps := mul_le_mul_of_nonneg_right hs eps_pos.le
  have h4 : 0 ≤ (a + b) * eps := mul_nonneg (by linarith) eps_pos.le
  constructor <;> linarith [h2.1, h2.2]

/-- The double-precision weighted sum is non-negative and within `1/1000`
of the exact weighted sum when each sub-score is in `[0, 100]`. -/
theorem overall_val_sandwich (sm em km tm : ℤ)
    (hs0 : 0 ≤ sm) (hs1 : sm ≤ 100) (he0 : 0 ≤ em) (he1 : em ≤ 100)
    (hk0 : 0 ≤ km) (hk1 : km ≤ 100) (ht0 : 0 ≤ tm) (ht1 : tm ≤ 100) :
    0 ≤ fadd (fadd (fadd (fmul (sm : ℚ) lit04) (fmul (em : ℚ) lit03))
        (fmul (km : ℚ) lit02)) (fmul (tm : ℚ) lit01)
    ∧ ((4 * sm + 3 * em + 2 * km + tm : ℤ) : ℚ) / 10 - 1 / 1000
        ≤ fadd (fadd (fadd (fmul (sm : ℚ) lit04) (fmul (em : ℚ) lit03))
            (fmul (km : ℚ) lit02)) (fmul (tm : ℚ) lit01)
    ∧ fadd (fadd (fadd (fmul (sm : ℚ) lit04) (fmul (em : ℚ) lit03))
        (fmul (km : ℚ) lit02)) (fmul (tm : ℚ) lit01)
        ≤ ((4 * sm + 3 * em + 2 * km + tm : ℤ) : ℚ) / 10 + 1 / 1000 := by
  have hsQ0 : (0 : ℚ) ≤ (sm : ℚ) := by exact_mod_cast hs0
  have hsQ1 : (sm : ℚ) ≤ 100 := by exact_mod_cast hs1
  have heQ0 : (0 : ℚ) ≤ (em : ℚ) := by exact_mod_cast he0
  have heQ1 : (em : ℚ) ≤ 100 := by exact_mod_cast he1
  have hkQ0 : (0 : ℚ) ≤ (km : ℚ) := by exact_mod_cast hk0
  have hkQ1 : (km : ℚ) ≤ 100 := by exact_mod_cast hk1
  have htQ0 : (0 : ℚ) ≤ (tm : ℚ) := by exact_mod_cast ht0
  have htQ1 : (tm : ℚ) ≤ 100 := by exact_mod_cast ht1
  have hl04p : (0 : ℚ) ≤ lit04 := by rw [lit04_eq]; norm_num
  have hl03p : (0 : ℚ) ≤ lit03 := by rw [lit03_eq]; norm_num
  have hl02p : (0 : ℚ) ≤ lit02 := by rw [lit02_eq]; norm_num
  have hl01p : (0 : ℚ) ≤ lit01 := by rw [lit01_eq]; norm_num
  have ha1 := fmul_weight_bounds (sm : ℚ) lit04 (2 / 5) hsQ0 hsQ1 hl04p
    (by norm_num) (by norm_num) (by rw [lit04_eq]; norm_num [eps])
    (by rw [lit04_eq]; norm_num [eps])
  have ha2 := fmul_weight_bounds (em : ℚ) lit03 (3 / 10) heQ0 heQ1 hl03p
    (by norm_num) (by norm_num) (by rw [lit03_eq]; norm_num [eps])
    (by rw [lit03_eq]; norm_num [eps])
  have ha3 := fmul_weight_bounds (km : ℚ) lit02 (1 / 5) hkQ0 hkQ1 hl02p
    (by norm_num) (by norm_num) (by rw [lit02_eq]; norm_num [eps])
    (by rw [lit02_eq]; norm_num [eps])
  have ha4 := fmul_weight_bounds (tm : ℚ) lit01 (1 / 10) htQ0 htQ1 hl01p
    (by norm_num) (by norm_num) (by rw [lit01_eq]; norm_num [eps])
    (by rw [lit01_eq]; norm_num [eps])
  have ha1p : 0 ≤ fmul (sm : ℚ) lit04 := roundNear_nonneg _ (mul_nonneg hsQ0 hl04p)
  have ha2p : 0 ≤ fmul (em : ℚ) lit03 := roundNear_nonneg _ (mul_nonneg heQ0 hl03p)
  have ha3p : 0 ≤ fmul (km : ℚ) lit02 := roundNear_nonneg _ (mul_nonneg hkQ0 hl02p)
  have ha4p : 0 ≤ fmul (tm : ℚ) lit01 := roundNear_nonneg _ (mul_nonneg htQ0 hl01p)
  have hf12 := fadd_near (fmul (sm : ℚ) lit04) (fmul (em : ℚ) lit03) ha1p ha2p
    (by linarith [ha1.2, ha2.2, eps_small, eps_pos])
  have hf12p : 0 ≤ fadd (fmul (sm : ℚ) lit04) (fmul (em : ℚ) lit03) :=
    roundNear_nonneg _ (add_nonneg ha1p ha2p)
  have hf123 := fadd_near (fadd (fmul (sm : ℚ) lit04) (fmul (em : ℚ) lit03))
    (fmul (km : ℚ) lit02) hf12p ha3p
    (by linarith [hf12.2, ha1.2, ha2.2, ha3.2, eps_small, eps_pos])
  have hf123p : 0 ≤ fadd (fadd (fmul (sm : ℚ) lit04) (fmul (em : ℚ) lit03))
      (fmul (km : ℚ) lit02) := roundNear_nonneg _ (add_nonneg hf12p ha3p)
  have hF := fadd_near (fadd (fadd (fmul (sm : ℚ) lit04) (fmul (em : ℚ) lit03))
      (fmul (km : ℚ) lit02)) (fmul (tm : ℚ) lit01) hf123p ha4p
    (by linarith [hf123.2, hf12.2, ha1.2, ha2.2, ha3.2, ha4.2, eps_small, eps_pos])
  have hFp : 0 ≤ fadd (fadd (fadd (fmul (sm : ℚ) lit04) (fmul (em : ℚ) lit03))
      (fmul (km : ℚ) lit02)) (fmul (tm : ℚ) lit01) :=
    roundNear_nonneg _ (add_nonneg hf123p ha4p)
  have h1506 : (1506 : ℚ) * eps ≤ 1 / 1000 := by norm_num [eps]
  refine ⟨hFp, ?_, ?_⟩
  · push_cast
    linarith [hF.1, hf123.1, hf12.1, ha1.1, ha2.1, ha3.1, ha4.1, h1506, eps_pos]
  · push_cast
    linarith [hF.2, hf123.2, hf12.2, ha1.2, ha2.2, ha3.2, ha4.2, h1506, eps_pos]

/-- The truncated double-precision overall score equals the exact
truncated weighted combination or falls one below it. -/
theorem overall_score_sandwich (sm em km tm : ℤ)
    (hs0 : 0 ≤ sm) (hs1 : sm ≤ 100) (he0 : 0 ≤ em) (he1 : em ≤ 100)
    (hk0 : 0 ≤ km) (hk1 : km ≤ 100) (ht0 : 0 ≤ tm) (ht1 : tm ≤ 100) :
    spec_overall sm em km tm - 1 ≤ overall_score sm em km tm
    ∧ overall_score sm em km tm ≤ spec_overall sm em km tm := by
  obtain ⟨hF0, hFl, hFu⟩ :=
    overall_val_sandwich sm em km tm hs0 hs1 he0 he1 hk0 hk1 ht0 ht1
  unfold overall_score spec_overall
  have hSeq : (sm : ℚ) * (4 / 10) + (em : ℚ) * (3 / 10) + (km : ℚ) * (2 / 10)
      + (tm : ℚ) * (1 / 10) = ((4 * sm + 3 * em + 2 * km + tm : ℤ) : ℚ) / 10 := by
    push_cast
    ring
  rw [hSeq]
  have hT0 : (0 : ℤ) ≤ 4 * sm + 3 * em + 2 * km + tm := by omega
  have hS0 : (0 : ℚ) ≤ ((4 * sm + 3 * em + 2 * km + tm : ℤ) : ℚ) / 10 := by
    have h := (by exact_mod_cast hT0 :
      (0 : ℚ) ≤ ((4 * sm + 3 * em + 2 * km + tm : ℤ) : ℚ))
    linarith
  rw [pytrunc_eq_floor _ hF0, pytrunc_eq_floor _ hS0]
  set S : ℚ := ((4 * sm + 3 * em + 2 * km + tm : ℤ) : ℚ) / 10 with hSdef
  set N : ℤ := ⌊S⌋ with hNdef
  have hNle : (N : ℚ) ≤ S := Int.floor_le S
  have hNgt : S < (N : ℚ) + 1 := Int.lt_floor_add_one S
  have hT10 : ((4 * sm + 3 * em + 2 * km + tm : ℤ) : ℚ) = 10 * S := by
    rw [hSdef]
    ring
  have hT9 : 4 * sm + 3 * em + 2 * km + tm ≤ 10 * N + 9 := by
    have h1 : ((4 * sm + 3 * em + 2 * km + tm : ℤ) : ℚ) < 10 * (N : ℚ) + 10 := by
      rw [hT10]
      linarith
    have h2 : (4 * sm + 3 * em + 2 * km + tm : ℤ) < 10 * N + 10 := by
      exact_mod_cast h1
    omega
  have hSle : S ≤ (N : ℚ) + 9 / 10 := by
    have h1 : ((4 * sm + 3 * em + 2 * km + tm : ℤ) : ℚ) ≤ 10 * (N : ℚ) + 9 := by
      exact_mod_cast hT9
    rw [hT10] at h1
    linarith
  constructor
  · have h2 : ((N : ℤ) - 1 : ℤ) ≤ ⌊fadd (fadd (fadd (fmul (sm : ℚ) lit04)
        (fmul (em : ℚ) lit03)) (fmul (km : ℚ) lit02)) (fmul (tm : ℚ) lit01)⌋ := by
      apply Int.le_floor.mpr
      push_cast
      linarith
    omega
  · have h2 : ⌊fadd (fadd (fadd (fmul (sm : ℚ) lit04) (fmul (em : ℚ) lit03))
        (fmul (km : ℚ) lit02)) (fmul (tm : ℚ) lit01)⌋ < N + 1 := by
      apply Int.floor_lt.mpr
      push_cast
      linarith
    omega

/-- The truncated double-precision overall score stays in `[0, 100]` when
each sub-score does. -/
theorem overall_score_range (sm em km tm : ℤ)
    (hs0 : 0 ≤ sm) (hs1 : sm ≤ 100) (he0 : 0 ≤ em) (he1 : em ≤ 100)
    (hk0 : 0 ≤ km) (hk1 : km ≤ 100) (ht0 : 0 ≤ tm) (ht1 : tm ≤ 100) :
    0 ≤ overall_score sm em km tm ∧ overall_score sm em km tm ≤ 100 := by
  obtain ⟨hF0, hFl, hFu⟩ :=
    overall_val_sandwich sm em km tm hs0 hs1 he0 he1 hk0 hk1 ht0 ht1
  constructor
  · unfold overall_score
    exact pytrunc_nonneg _ hF0
  · have hup := (overall_score_sandwich sm em km tm hs0 hs1 he0 he1 hk0 hk1 ht0 ht1).2
    have hspec : spec_overall sm em km tm ≤ 100 := by
      unfold spec_overall
      have hT0 : (0 : ℤ) ≤ 4 * sm + 3 * em + 2 * km + tm := by omega
      have hS0 : (0 : ℚ) ≤ (sm : ℚ) * (4 / 10) + (em : ℚ) * (3 / 10)
          + (km : ℚ) * (2 / 10) + (tm : ℚ) * (1 / 10) := by
        have hsQ0 : (0 : ℚ) ≤ (sm : ℚ) := by exact_mod_cast hs0
        have heQ0 : (0 : ℚ) ≤ (em : ℚ) := by exact_mod_cast he0
        have hkQ0 : (0 : ℚ) ≤ (km : ℚ) := by exact_mod_cast hk0
        have htQ0 : (0 : ℚ) ≤ (tm : ℚ) := by exact_mod_cast ht0
        linarith
      rw [pytrunc_eq_floor _ hS0]
      have hlt : (sm : ℚ) * (4 / 10) + (em : ℚ) * (3 / 10)
          + (km : ℚ) * (2 / 10) + (tm : ℚ) * (1 / 10) < 101 := by
        have hsQ1 : (sm : ℚ) ≤ 100 := by exact_mod_cast hs1
        have heQ1 : (em : ℚ) ≤ 100 := by exact_mod_cast he1
        have hkQ1 : (km : ℚ) ≤ 100 := by exact_mod_cast hk1
        have htQ1 : (tm : ℚ) ≤ 100 := by exact_mod_cast ht1
        linarith
      have h2 := Int.floor_lt.mpr (show ((sm : ℚ) * (4 / 10) + (em : ℚ) * (3 / 10)
          + (km : ℚ) * (2 / 10) + (tm : ℚ) * (1 / 10)) < ((101 : ℤ) : ℚ) by
        push_cast
        linarith)
      omega
    omega

/-! ## Helper facts about strings and prompt assembly -/

theorem match_summary_ne (km sm : ℤ) : match_summary km sm ≠ "Unable to analyze" := by
  intro h
  have hh : (match_summary km sm).data.head? = some 'U' := by
    rw [h]
    rfl
  unfold match_summary at hh
  simp only [String.data_append, List.cons_append, List.head?_cons,
    Option.some.injEq] at hh
  exact absurd hh (by decide)

theorem foldl_renderTurn_shift : ∀ (l : List Turn) (init : String),
    l.foldl (fun acc t => acc ++ renderTurn t) init
      = init ++ String.join (l.map renderTurn) := by
  intro l
  induction l with
  | nil =>
    intro init
    simp [String.join]
  | cons t rest ih =>
    intro init
    show rest.foldl (fun acc t => acc ++ renderTurn t) (init ++ renderTurn t)
      = init ++ String.join ((t :: rest).map renderTurn)
    rw [ih (init ++ renderTurn t)]
    have hjoin : String.join ((t :: rest).map renderTurn)
        = renderTurn t ++ String.join (rest.map renderTurn) := by
      show (rest.map renderTurn).foldl (fun r s => r ++ s) ("" ++ renderTurn t)
        = renderTurn t ++ String.join (rest.map renderTurn)
      have h2 : ∀ (l2 : List String) (init : String),
          l2.foldl (fun r s => r ++ s) init = init ++ String.join l2 := by
        intro l2
        induction l2 with
        | nil => intro init; simp [String.join]
        | cons s2 rest2 ih2 =>
          intro init
          show rest2.foldl (fun r s => r ++ s) (init ++ s2)
            = init ++ String.join (s2 :: rest2)
          rw [ih2 (init ++ s2)]
          have h3 : String.join (s2 :: rest2) = s2 ++ String.join rest2 := by
            show rest2.foldl (fun r s => r ++ s) ("" ++ s2)
              = s2 ++ String.join rest2
            rw [ih2 ("" ++ s2)]
            simp [String.append_assoc]
          rw [h3, String.append_assoc]
      rw [h2 (rest.map renderTurn) ("" ++ renderTurn t)]
      simp
    rw [hjoin, String.append_assoc]

/-! ## Claim C3: the empty-keyword-set early exit -/

/-- C3: `calculate_match_score` returns exactly
`(0, 0, 0, 0, "Unable to analyze")` precisely when the job-description
keyword set is empty — the early exit fires on every such input, and no
other input can produce that result (the full path's summary string always
differs), so this is the sole early-exit path. -/
theorem C3_empty_jd_early_exit (r jd : String) :
    calculate_match_score r jd = some (0, 0, 0, 0, "Unable to analyze")
      ↔ jd_unique jd = [] := by
  unfold calculate_match_score
  by_cases hjd : (jd_unique jd).isEmpty
  · rw [if_pos hjd]
    simp only [true_iff]
    exact List.isEmpty_iff.mp hjd
  · rw [if_neg hjd]
    constructor
    · intro h
      cases he : experience_match r with
      | none =>
        rw [he] at h
        exact absurd h (by simp)
      | some em =>
        rw [he] at h
        simp only [Option.some.injEq, Prod.mk.injEq] at h
        exact absurd h.2.2.2.2 (match_summary_ne _ _)
    · intro h
      exact absurd (List.isEmpty_iff.mpr h) hjd

/-! ## Claim C6: all returned percentages lie in `[0, 100]` -/

/-- C6: whenever `calculate_match_score` returns, its four integer
percentages — and the internally computed tone figure — lie in `[0, 100]`. -/
theorem C6_score_ranges (r jd : String) (ov sm em km : ℤ) (s : String)
    (h : calculate_match_score r jd = some (ov, sm, em, km, s)) :
    (0 ≤ ov ∧ ov ≤ 100) ∧ (0 ≤ sm ∧ sm ≤ 100) ∧ (0 ≤ em ∧ em ≤ 100)
      ∧ (0 ≤ km ∧ km ≤ 100) ∧ (0 ≤ tone_match r ∧ tone_match r ≤ 100) := by
  have htone := tone_match_bounds r
  unfold calculate_match_score at h
  by_cases hjd : (jd_unique jd).isEmpty
  · rw [if_pos hjd] at h
    simp only [Option.some.injEq, Prod.mk.injEq] at h
    obtain ⟨h1, h2, h3, h4, _⟩ := h
    subst h1
    subst h2
    subst h3
    subst h4
    refine ⟨⟨le_refl 0, by norm_num⟩, ⟨le_refl 0, by norm_num⟩,
      ⟨le_refl 0, by norm_num⟩, ⟨le_refl 0, by norm_num⟩, htone⟩
  · rw [if_neg hjd] at h
    cases he : experience_match r with
    | none =>
      rw [he] at h
      exact absurd h (by simp)
    | some em2 =>
      rw [he] at h
      simp only [Option.some.injEq, Prod.mk.injEq] at h
      obtain ⟨hov, hsm, hem, hkm, _⟩ := h
      subst hov
      subst hsm
      subst hem
      subst hkm
      have hkb := keywords_match_bounds r jd
      have hsb := skills_match_bounds r jd
      have heb := experience_match_bounds r em2 he
      have hob := overall_score_range _ _ _ _ hsb.1 hsb.2 heb.1 heb.2
        hkb.1 hkb.2 htone.1 htone.2
      exact ⟨hob, hsb, heb, hkb, htone⟩

set_option maxRecDepth 1000000 in
/-- Witness for C6 at a concrete input. -/
theorem C6_score_ranges_witness :
    ((0 : ℤ) ≤ 60 ∧ (60 : ℤ) ≤ 100) ∧ ((0 : ℤ) ≤ 100 ∧ (100 : ℤ) ≤ 100)
      ∧ ((0 : ℤ) ≤ 0 ∧ (0 : ℤ) ≤ 100) ∧ ((0 : ℤ) ≤ 100 ∧ (100 : ℤ) ≤ 100)
      ∧ (0 ≤ tone_match "python" ∧ tone_match "python" ≤ 100) :=
  C6_score_ranges "python" "python" 60 100 0 100
    "Your resume matches 100% of job keywords with 100% skill alignment."
    (by with_unfolding_all decide)

/-! ## Claim C7: the text extractor is total and failure-silent -/

/-- C7: suffix dispatch of `extract_text` — unknown suffixes and failed
extractions produce the empty string (never an exception, which the
`Except`-valued oracle parameters make explicit), and a successful
extraction's text passes through. -/
theorem C7_extract_text_total (pdfRes docxRes txtRes : Except String String)
    (fn : String) :
    (¬fn.endsWith ".pdf" = true → ¬fn.endsWith ".docx" = true →
      ¬fn.endsWith ".txt" = true → extract_text pdfRes docxRes txtRes fn = "")
    ∧ (∀ e, fn.endsWith ".pdf" = true → pdfRes = .error e →
        extract_text pdfRes docxRes txtRes fn = "")
    ∧ (∀ t, fn.endsWith ".pdf" = true → pdfRes = .ok t →
        extract_text pdfRes docxRes txtRes fn = t)
    ∧ (∀ e, ¬fn.endsWith ".pdf" = true → fn.endsWith ".docx" = true →
        docxRes = .error e → extract_text pdfRes docxRes txtRes fn = "")
    ∧ (∀ t, ¬fn.endsWith ".pdf" = true → fn.endsWith ".docx" = true →
        docxRes = .ok t → extract_text pdfRes docxRes txtRes fn = t)
    ∧ (∀ e, ¬fn.endsWith ".pdf" = true → ¬fn.endsWith ".docx" = true →
        fn.endsWith ".txt" = true → txtRes = .error e →
        extract_text pdfRes docxRes txtRes fn = "")
    ∧ (∀ t, ¬fn.endsWith ".pdf" = true → ¬fn.endsWith ".docx" = true →
        fn.endsWith ".txt" = true → txtRes = .ok t →
        extract_text pdfRes docxRes txtRes fn = t) := by
  refine ⟨?_, ?_, ?_, ?_, ?_, ?_, ?_⟩
  · intro h1 h2 h3
    simp [extract_text, h1, h2, h3]
  · intro e h1 h2
    simp [extract_text, h1, h2]
  · intro t h1 h2
    simp [extract_text, h1, h2]
  · intro e h1 h2 h3
    simp [extract_text, h1, h2, h3]
  · intro t h1 h2 h3
    simp [extract_text, h1, h2, h3]
  · intro e h1 h2 h3 h4
    simp [extract_text, h1, h2, h3, h4]
  · intro t h1 h2 h3 h4
    simp [extract_text, h1, h2, h3, h4]

/-- Witness for C7 at concrete filenames and oracle outcomes. -/
theorem C7_extract_text_total_witness :
    extract_text (.error "bad pdf") (.ok "doc text") (.ok "txt text") "cv.bin" = ""
    ∧ extract_text (.error "bad pdf") (.ok "doc text") (.ok "txt text") "cv.pdf" = ""
    ∧ extract_text (.error "bad pdf") (.ok "doc text") (.ok "txt text") "cv.docx"
        = "doc text" :=
  ⟨(C7_extract_text_total (.error "bad pdf") (.ok "doc text") (.ok "txt text")
      "cv.bin").1 (by with_unfolding_all decide) (by with_unfolding_all decide)
      (by with_unfolding_all decide),
   (C7_extract_text_total (.error "bad pdf") (.ok "doc text") (.ok "txt text")
      "cv.pdf").2.1 "bad pdf" (by with_unfolding_all decide) rfl,
   (C7_extract_text_total (.error "bad pdf") (.ok "doc text") (.ok "txt text")
      "cv.docx").2.2.2.2.1 "doc text" (by with_unfolding_all decide)
      (by with_unfolding_all decide) rfl⟩

/-! ## Claim C9: chat prompt structure -/

/-- C9: the chat prompt is exactly the persona instruction with the resume
text, then the transcript rendered one `"<Role>: <content>"` line per
prior turn via `str.title()` on the role, in the order supplied, then the
new user message and the trailing assistant cue. -/
theorem C9_chat_prompt_structure (r : String) (history : List Turn) (m : String) :
    chat_full_prompt r history m
      = chat_system_prompt r ++ "\n\nConversation:\n"
        ++ String.join (history.map renderTurn)
        ++ ("\nUser: " ++ m ++ "\nAssistant:") := by
  unfold chat_full_prompt
  rw [foldl_renderTurn_shift history (chat_system_prompt r ++ "\n\nConversation:\n")]

/-! ## Claim C10: chat input validation -/

/-- C10: omitting the prior-conversation field is not an input error — it
defaults to the empty transcript — and (with the backend configured) the
input-error response occurs exactly when the resume text or the new user
message is absent or empty. -/
theorem C10_chat_validation (r : Option String) (h : Option (List Turn))
    (m : Option String) :
    (chat_with_bot true r none m = chat_with_bot true r (some []) m)
    ∧ (chat_with_bot true r h m = ChatResult.inputError
        ↔ ((r = none ∨ r = some "") ∨ (m = none ∨ m = some ""))) := by
  constructor
  · rfl
  · unfold chat_with_bot falsy
    rcases r with _ | s <;> rcases m with _ | t <;>
      simp [String.isEmpty_iff, ChatResult.generate.injEq] <;> tauto

/-! ## Claim C1: the overall-score formula -/

set_option maxRecDepth 1000000 in
/-- C1 counterexample: against `jdFifty`, `resumeWeighted` realises the
sub-scores (3, 50, 2, 14), for which the code returns overall 17 while the
exact truncated weighted sum of the claim is 18. -/
theorem C1_counterexample :
    calculate_match_score resumeWeighted jdFifty
      = some (17, 3, 50, 2,
          "Your resume matches 2% of job keywords with 3% skill alignment.")
    ∧ tone_match resumeWeighted = 14
    ∧ spec_overall 3 50 2 14 = 18 := by
  refine ⟨?_, ?_, ?_⟩ <;> with_unfolding_all decide

set_option maxRecDepth 1000000 in
/-- C1 amended: the overall score is the double-precision evaluation of
the weighted sum, which is the exact truncation or one less; at
sub-scores (80, 50, 60, 20) it equals 61 as the claim states. -/
theorem C1_overall_formula :
    overall_score 80 50 60 20 = 61
    ∧ (∀ sm em km tm : ℤ, 0 ≤ sm → sm ≤ 100 → 0 ≤ em → em ≤ 100 →
        0 ≤ km → km ≤ 100 → 0 ≤ tm → tm ≤ 100 →
        spec_overall sm em km tm - 1 ≤ overall_score sm em km tm
        ∧ overall_score sm em km tm ≤ spec_overall sm em km tm) := by
  constructor
  · with_unfolding_all decide
  · intro sm em km tm hs0 hs1 he0 he1 hk0 hk1 ht0 ht1
    exact overall_score_sandwich sm em km tm hs0 hs1 he0 he1 hk0 hk1 ht0 ht1

set_option maxRecDepth 1000000 in
/-- Witness for C1 at the sub-scores of the counterexample input. -/
theorem C1_overall_formula_witness :
    spec_overall 3 50 2 14 - 1 ≤ overall_score 3 50 2 14
    ∧ overall_score 3 50 2 14 ≤ spec_overall 3 50 2 14 :=
  C1_overall_formula.2 3 50 2 14 (by norm_num) (by norm_num) (by norm_num)
    (by norm_num) (by norm_num) (by norm_num) (by norm_num) (by norm_num)

/-! ## Claim C5: keywords-match and skills-match formulas -/

set_option maxRecDepth 1000000 in
/-- C5 counterexample: 29 matched keywords out of 50 give 57 in the code
(the claimed exact truncation is 58). -/
theorem C5_counterexample :
    calculate_match_score resumeTwentyNine jdFifty
      = some (24, 32, 0, 57,
          "Your resume matches 57% of job keywords with 32% skill alignment.")
    ∧ (matched_keywords resumeTwentyNine jdFifty).length = 29
    ∧ (jd_unique jdFifty).length = 50
    ∧ spec_pct 29 50 = 58 := by
  refine ⟨?_, ?_, ?_, ?_⟩ <;> with_unfolding_all decide

/-- C5 amended: the skills-match formula holds exactly as claimed (its
denominator is at most 33); the keywords-match is the double-precision
percentage, which is the claimed exact truncation or one less (for
keyword sets up to `2 ^ 40`). -/
theorem C5_match_formulas :
    (∀ r jd : String, jd_skills jd ≠ [] →
        skills_match r jd
          = (spec_pct (matched_skills r jd).length (jd_skills jd).length : ℤ))
    ∧ (∀ r jd : String, jd_skills jd = [] → skills_match r jd = 0)
    ∧ (∀ r jd : String, jd_unique jd ≠ [] → (jd_unique jd).length ≤ 2 ^ 40 →
        (spec_pct (matched_keywords r jd).length (jd_unique jd).length : ℤ) - 1
            ≤ keywords_match r jd
        ∧ keywords_match r jd
            ≤ (spec_pct (matched_keywords r jd).length (jd_unique jd).length : ℤ)) := by
  refine ⟨?_, ?_, ?_⟩
  · intro r jd hne
    unfold skills_match
    rw [if_neg (by simpa [List.isEmpty_iff] using hne)]
    have h1 : 1 ≤ (jd_skills jd).length := List.length_pos.mpr hne
    have h33 := jd_skills_length_le jd
    have hm := matched_skills_le r jd
    exact ratioPct_small (jd_skills jd).length (by omega)
      (matched_skills r jd).length (by omega)
  · intro r jd he
    unfold skills_match
    rw [if_pos (List.isEmpty_iff.mpr he)]
  · intro r jd hne hlen
    have h1 : 1 ≤ (jd_unique jd).length := List.length_pos.mpr hne
    exact ratioPct_sandwich _ _ h1 (matched_keywords_le r jd) hlen

set_option maxRecDepth 1000000 in
/-- Witness for C5 at a concrete input. -/
theorem C5_match_formulas_witness :
    skills_match "python" "python"
      = (spec_pct (matched_skills "python" "python").length
          (jd_skills "python").length : ℤ)
    ∧ ((spec_pct (matched_keywords "python" "python").length
          (jd_unique "python").length : ℤ) - 1
          ≤ keywords_match "python" "python"
        ∧ keywords_match "python" "python"
          ≤ (spec_pct (matched_keywords "python" "python").length
              (jd_unique "python").length : ℤ)) :=
  ⟨C5_match_formulas.1 "python" "python" (by with_unfolding_all decide),
   C5_match_formulas.2.2 "python" "python" (by with_unfolding_all decide)
     (by with_unfolding_all decide)⟩

/-! ## Claim C4: the experience heuristic -/

set_option maxRecDepth 1000000 in
/-- C4 counterexample: a resume whose first captured year count is
`10 ^ 309` drives the float pipeline into overflow — the scorer raises
(`none`) instead of returning the claimed capped value. -/
theorem C4_counterexample :
    findFirstYears resumeHugeYears.data = some (10 ^ 309)
    ∧ calculate_match_score resumeHugeYears "python developer" = none := by
  constructor
  · decide
  · with_unfolding_all decide

set_option maxRecDepth 1000000 in
/-- Below the overflow region the capped formula of the claim holds
(per-case verification for one to ten years, cap analysis above ten). -/
theorem expFromYears_eq (y : ℕ) (h1 : 1 ≤ y) (hb : y ≤ 10 ^ 307) :
    expFromYears y = some (min (10 * (y : ℤ)) 100) := by
  by_cases hy : y ≤ 10
  · interval_cases y <;> with_unfolding_all decide
  · have hy11 : 11 ≤ y := by omega
    have hyQ : (11 : ℚ) ≤ (y : ℚ) := by exact_mod_cast hy11
    have hyB : (y : ℚ) ≤ 10 ^ 307 := by exact_mod_cast hb
    have h10 : (0 : ℚ) ≤ (y : ℚ) / 10 := by positivity
    have hd := roundNear_bounds ((y : ℚ) / 10) h10
    have hd0 : 0 ≤ roundNear ((y : ℚ) / 10) := roundNear_nonneg _ h10
    have hdiv306 : (y : ℚ) / 10 ≤ 10 ^ 306 := by linarith
    have hdivEps : (y : ℚ) / 10 * eps ≤ 10 ^ 306 * eps :=
      mul_le_mul_of_nonneg_right hdiv306 eps_pos.le
    have hmaxQ : maxFloat = (((2 ^ 53 - 1) * 2 ^ 971 : ℕ) : ℚ) := rfl
    have hnotover1 : ¬(maxFloat < roundNear ((y : ℚ) / 10)) := by
      rw [not_lt, hmaxQ]
      have hbound : roundNear ((y : ℚ) / 10) ≤ 10 ^ 306 + 10 ^ 306 * eps := by
        linarith [hd.2]
      have hnum : (10 : ℚ) ^ 306 + 10 ^ 306 * eps
          ≤ (((2 ^ 53 - 1) * 2 ^ 971 : ℕ) : ℚ) := by
        push_cast
        norm_num [eps]
      exact le_trans hbound hnum
    have hp := roundNear_bounds (roundNear ((y : ℚ) / 10) * 100)
      (mul_nonneg hd0 (by norm_num))
    have hp0 : 0 ≤ roundNear (roundNear ((y : ℚ) / 10) * 100) :=
      roundNear_nonneg _ (mul_nonneg hd0 (by norm_num))
    have hpub : roundNear ((y : ℚ) / 10) * 100 ≤ 10 ^ 308 + 10 ^ 308 * eps := by
      nlinarith [hd.2, hdivEps, eps_pos]
    have hpub2 : roundNear (roundNear ((y : ℚ) / 10) * 100)
        ≤ (10 ^ 308 + 10 ^ 308 * eps) * (1 + eps) := by
      have h3 := hp.2
      have h4 : roundNear ((y : ℚ) / 10) * 100 * eps
          ≤ (10 ^ 308 + 10 ^ 308 * eps) * eps :=
        mul_le_mul_of_nonneg_right hpub eps_pos.le
      nlinarith [eps_pos]
    have hnotover2 : ¬(maxFloat < roundNear (roundNear ((y : ℚ) / 10) * 100)) := by
      rw [not_lt, hmaxQ]
      have hnum : ((10 : ℚ) ^ 308 + 10 ^ 308 * eps) * (1 + eps)
          ≤ (((2 ^ 53 - 1) * 2 ^ 971 : ℕ) : ℚ) := by
        push_cast
        norm_num [eps]
      exact le_trans hpub2 hnum
    -- both sides cap at 100
    have hplb : (100 : ℚ) < roundNear (roundNear ((y : ℚ) / 10) * 100) := by
      have hdl : (y : ℚ) / 10 - (y : ℚ) / 10 * eps ≤ roundNear ((y : ℚ) / 10) :=
        hd.1
      have hyd : (11 : ℚ) / 10 ≤ (y : ℚ) / 10 := by linarith
      nlinarith [hp.1, eps_small, eps_pos, hd0]
    have hfloor : (100 : ℤ) ≤ pytrunc (roundNear (roundNear ((y : ℚ) / 10) * 100)) := by
      rw [pytrunc_eq_floor _ hp0]
      exact Int.le_floor.mpr (by push_cast; linarith)
    have hcap1 : min (pytrunc (roundNear (roundNear ((y : ℚ) / 10) * 100))) 100
        = 100 := min_eq_right hfloor
    have hcap2 : min (10 * (y : ℤ)) 100 = 100 := by
      have : (110 : ℤ) ≤ 10 * (y : ℤ) := by exact_mod_cast (by omega : 110 ≤ 10 * y)
      omega
    have hstep1 : fdivChecked ((y : ℕ) : ℚ) 10 = some (roundNear ((y : ℚ) / 10)) :=
      if_neg hnotover1
    have hstep2 : fmulChecked (roundNear ((y : ℚ) / 10)) 100
        = some (roundNear (roundNear ((y : ℚ) / 10) * 100)) :=
      if_neg hnotover2
    unfold expFromYears
    rw [hstep1]
    show fmulChecked (roundNear ((y : ℚ) / 10)) 100 >>= (fun p =>
        pure (min (pytrunc p) 100)) = some (min (10 * (y : ℤ)) 100)
    rw [hstep2]
    show some (min (pytrunc (roundNear (roundNear ((y : ℚ) / 10) * 100))) 100)
        = some (min (10 * (y : ℤ)) 100)
    rw [hcap1, hcap2]

/-- C4 amended: the experience score is `0` without a match, and equals
the claimed `truncate(min(Y/10*100, 100)) = min(10 Y, 100)` whenever the
captured `Y` stays below the binary64 overflow region (up to `10 ^ 307`);
beyond it the scorer raises `OverflowError` instead (see the
counterexample). -/
theorem C4_experience_formula :
    (∀ r : String, findFirstYears r.data = none → experience_match r = some 0)
    ∧ (∀ (r : String) (y : ℕ), findFirstYears r.data = some y → y ≤ 10 ^ 307 →
        experience_match r = some (min (10 * (y : ℤ)) 100)) := by
  constructor
  · intro r h
    unfold experience_match
    rw [h]
  · intro r y h hb
    unfold experience_match
    rw [h]
    dsimp only
    by_cases hy : 0 < y
    · rw [if_pos hy]
      exact expFromYears_eq y hy hb
    · rw [if_neg hy]
      have hy0 : y = 0 := by omega
      subst hy0
      norm_num

set_option maxRecDepth 1000000 in
/-- Witness for C4 at the claim's own boundary examples. -/
theorem C4_experience_formula_witness :
    experience_match "hello world" = some 0
    ∧ experience_match "I have 10 years of experience" = some (min (10 * (10 : ℤ)) 100)
    ∧ experience_match "I have 20 years" = some (min (10 * (20 : ℤ)) 100)
    ∧ experience_match "I have 0 years" = some (min (10 * (0 : ℤ)) 100) :=
  ⟨C4_experience_formula.1 "hello world" (by with_unfolding_all decide),
   C4_experience_formula.2 "I have 10 years of experience" 10
     (by with_unfolding_all decide) (by norm_num),
   C4_experience_formula.2 "I have 20 years" 20
     (by with_unfolding_all decide) (by norm_num),
   C4_experience_formula.2 "I have 0 years" 0
     (by with_unfolding_all decide) (by norm_num)⟩

/-! ## Claim C8: tailoring post-processing -/

theorem removeTicksF_nil (fuel : ℕ) : removeTicksF fuel [] = [] := by
  cases fuel <;> rfl

theorem hasTicks_cons_elim {c : Char} {rest : List Char}
    (h : hasTicks (c :: rest) = false) :
    ¬(c = tick ∧ rest.take 2 = [tick, tick]) ∧ hasTicks rest = false := by
  unfold hasTicks at h
  simp only [Bool.or_eq_false_iff, Bool.and_eq_false_iff,
    decide_eq_false_iff_not] at h
  exact ⟨fun hc => by tauto, h.2⟩

theorem removeTicksF_no_ticks : ∀ (fuel : ℕ) (l : List Char), l.length ≤ fuel →
    hasTicks l = false → removeTicksF fuel l = l := by
  intro fuel
  induction fuel with
  | zero =>
    intro l hl _
    have h0 : l = [] := List.length_eq_zero.mp (by omega)
    subst h0
    rfl
  | succ f ih =>
    intro l hl ht
    cases l with
    | nil => rfl
    | cons c rest =>
      obtain ⟨hnc, hrest⟩ := hasTicks_cons_elim ht
      show (if c = tick ∧ rest.take 2 = [tick, tick]
          then removeTicksF f (rest.drop 2) else c :: removeTicksF f rest)
        = c :: rest
      rw [if_neg hnc]
      congr 1
      exact ih rest (by simp at hl; omega) hrest

theorem removeTicksF_append_ticks : ∀ (fuel : ℕ) (l : List Char),
    l.length + 3 ≤ fuel → hasTicks l = false →
    removeTicksF fuel (l ++ [tick, tick, tick]) = l := by
  intro fuel
  induction fuel with
  | zero =>
    intro l hl _
    exact absurd hl (by omega)
  | succ f ih =>
    intro l hl ht
    cases l with
    | nil =>
      show (if tick = tick ∧ [tick, tick].take 2 = [tick, tick]
          then removeTicksF f ([tick, tick].drop 2)
          else tick :: removeTicksF f [tick, tick]) = []
      rw [if_pos ⟨rfl, rfl⟩]
      exact removeTicksF_nil f
    | cons c rest =>
      obtain ⟨hnc, hrest⟩ := hasTicks_cons_elim ht
      show (if c = tick ∧ (rest ++ [tick, tick, tick]).take 2 = [tick, tick]
          then removeTicksF f ((rest ++ [tick, tick, tick]).drop 2)
          else c :: removeTicksF f (rest ++ [tick, tick, tick]))
        = c :: rest
      by_cases hcond : c = tick ∧ (rest ++ [tick, tick, tick]).take 2 = [tick, tick]
      · rw [if_pos hcond]
        obtain ⟨hc, htake⟩ := hcond
        subst hc
        cases rest with
        | nil =>
          show removeTicksF f [tick] = [tick]
          have hl1 : ([tick] : List Char).length ≤ f := by
            simp only [List.length_cons, List.length_nil] at hl ⊢
            omega
          exact removeTicksF_no_ticks f [tick] hl1 (by decide)
        | cons c2 rest2 =>
          cases rest2 with
          | nil =>
            have hc2 : c2 = tick := by
              have h2 : ([c2] ++ [tick, tick, tick]).take 2 = [c2, tick] := rfl
              rw [h2] at htake
              exact (List.cons.injEq _ _ _ _).mp htake |>.1
            subst hc2
            show removeTicksF f [tick, tick] = [tick, tick]
            have hl2 : ([tick, tick] : List Char).length ≤ f := by
              simp only [List.length_cons, List.length_nil] at hl ⊢
              omega
            exact removeTicksF_no_ticks f [tick, tick] hl2 (by decide)
          | cons c3 rest3 =>
            have h2 : ((c2 :: c3 :: rest3) ++ [tick, tick, tick]).take 2
                = [c2, c3] := rfl
            rw [h2] at htake
            have hc2 : c2 = tick ∧ c3 = tick := by
              have h3 := (List.cons.injEq _ _ _ _).mp htake
              have h4 := (List.cons.injEq _ _ _ _).mp h3.2
              exact ⟨h3.1, h4.1⟩
            exact absurd ⟨rfl, by rw [show (c2 :: c3 :: rest3).take 2 = [c2, c3]
              from rfl, hc2.1, hc2.2]⟩ hnc
      · rw [if_neg hcond]
        congr 1
        exact ih rest (by simp only [List.length_cons] at hl; omega) hrest

/-- Wrapping a fence-free text in leading and trailing fences and running
the replacement recovers the text. -/
theorem removeTicks_wrap (l : List Char) (h : hasTicks l = false) :
    removeTicks ([tick, tick, tick] ++ (l ++ [tick, tick, tick])) = l := by
  unfold removeTicks
  have hlen : ([tick, tick, tick] ++ (l ++ [tick, tick, tick])).length
      = l.length + 6 := by
    simp [List.length_append]
  rw [hlen]
  show (if tick = tick ∧ (tick :: tick :: (l ++ [tick, tick, tick])).take 2
        = [tick, tick]
      then removeTicksF (l.length + 5)
        ((tick :: tick :: (l ++ [tick, tick, tick])).drop 2)
      else tick :: removeTicksF (l.length + 5)
        (tick :: tick :: (l ++ [tick, tick, tick]))) = l
  rw [if_pos ⟨rfl, rfl⟩]
  show removeTicksF (l.length + 5) (l ++ [tick, tick, tick]) = l
  exact removeTicksF_append_ticks (l.length + 5) l (by omega) h

set_option maxRecDepth 100000 in
/-- C8 counterexample: an interior fence is also deleted — the completion
`"x```y"` has no leading or trailing fence markup, yet the code returns
`"xy"`, not the unchanged text. -/
theorem C8_counterexample :
    customize_postprocess "x```y" = "xy" ∧ ("xy" : String) ≠ "x```y" := by
  constructor <;> with_unfolding_all decide

/-- C8 amended: the post-processing deletes every occurrence of the
three-backtick fence (interior ones included) and trims surrounding
whitespace; fence-free completions are only whitespace-trimmed, and a
completion wrapped in leading/trailing fences around a fence-free body
yields exactly the trimmed body. -/
theorem C8_fence_stripping :
    (∀ s : String, hasTicks s.data = false → customize_postprocess s = pyStrip s)
    ∧ (∀ body : String, hasTicks body.data = false →
        customize_postprocess ("```" ++ body ++ "```") = pyStrip body) := by
  constructor
  · intro s hs
    unfold customize_postprocess removeTicks
    rw [removeTicksF_no_ticks _ _ le_rfl hs]
  · intro body hb
    unfold customize_postprocess
    have hticks : ("```" : String).data = [tick, tick, tick] := by decide
    have hdata : ("```" ++ body ++ "```" : String).data
        = [tick, tick, tick] ++ (body.data ++ [tick, tick, tick]) := by
      rw [String.data_append, String.data_append, hticks, List.append_assoc]
    rw [hdata, removeTicks_wrap body.data hb]

/-- Witness for C8 at concrete completions. -/
theorem C8_fence_stripping_witness :
    customize_postprocess "  tailored resume  " = pyStrip "  tailored resume  "
    ∧ customize_postprocess ("```" ++ "tailored resume" ++ "```")
        = pyStrip "tailored resume" :=
  ⟨C8_fence_stripping.1 "  tailored resume  " (by with_unfolding_all decide),
   C8_fence_stripping.2 "tailored resume" (by with_unfolding_all decide)⟩

/-! ## Claim C2: keyword tokenization

The equivalence between the regex scanner and the `\w`-block description:
a maximal `[a-z]` run is emitted iff the maximal `\w`-block containing it
is exactly that run, i.e. iff the block is all-lowercase. -/

theorem lower_imp_word {c : Char} (h : isLowerAlpha c = true) :
    isWordChar c = true := by
  unfold isWordChar
  rw [h]
  rfl

theorem takeWhile_word_split : ∀ l : List Char,
    l.takeWhile isWordChar
      = l.takeWhile isLowerAlpha ++ (l.dropWhile isLowerAlpha).takeWhile isWordChar := by
  intro l
  induction l with
  | nil => rfl
  | cons c rest ih =>
    by_cases hc : isLowerAlpha c = true
    · simp only [List.takeWhile_cons, List.dropWhile_cons, hc, lower_imp_word hc,
        if_true]
      rw [ih]
      exact (List.cons_append _ _ _).symm
    · have hc2 : isLowerAlpha c = false := by
        cases h2 : isLowerAlpha c
        · rfl
        · exact absurd h2 hc
      simp only [List.takeWhile_cons, List.dropWhile_cons, hc2]
      simp
      rw [List.takeWhile_cons]

theorem dropWhile_word_split : ∀ l : List Char,
    l.dropWhile isWordChar = (l.dropWhile isLowerAlpha).dropWhile isWordChar := by
  intro l
  induction l with
  | nil => rfl
  | cons c rest ih =>
    by_cases hc : isLowerAlpha c = true
    · simp only [List.dropWhile_cons, hc, lower_imp_word hc, if_true]
      exact ih
    · have hc2 : isLowerAlpha c = false := by
        cases h2 : isLowerAlpha c
        · rfl
        · exact absurd h2 hc
      simp only [List.dropWhile_cons, hc2]
      simp
      rw [List.dropWhile_cons]

theorem takeWhile_lower_all : ∀ l : List Char,
    (l.takeWhile isLowerAlpha).all isLowerAlpha = true := by
  intro l
  induction l with
  | nil => rfl
  | cons c rest ih =>
    by_cases hc : isLowerAlpha c = true
    · simp only [List.takeWhile_cons, hc, if_true, List.all_cons, Bool.and_eq_true]
      exact ⟨trivial, ih⟩
    · have hc2 : isLowerAlpha c = false := by
        cases h2 : isLowerAlpha c
        · rfl
        · exact absurd h2 hc
      simp [List.takeWhile_cons, hc2]

theorem wordBlocksF_fuel : ∀ (f1 f2 : ℕ) (l : List Char),
    l.length ≤ f1 → l.length ≤ f2 → wordBlocksF f1 l = wordBlocksF f2 l := by
  intro f1
  induction f1 with
  | zero =>
    intro f2 l hl _
    have h0 : l = [] := List.length_eq_zero.mp (by omega)
    subst h0
    cases f2 <;> rfl
  | succ f ih =>
    intro f2 l hl hl2
    cases l with
    | nil => cases f2 <;> rfl
    | cons c rest =>
      obtain ⟨k, rfl⟩ : ∃ k, f2 = k + 1 := ⟨f2 - 1, by simp at hl2; omega⟩
      show (if isWordChar c then (c :: rest.takeWhile isWordChar)
            :: wordBlocksF f (rest.dropWhile isWordChar)
          else wordBlocksF f rest)
        = (if isWordChar c then (c :: rest.takeWhile isWordChar)
            :: wordBlocksF k (rest.dropWhile isWordChar)
          else wordBlocksF k rest)
      simp only [List.length_cons] at hl hl2
      by_cases hc : isWordChar c = true
      · rw [if_pos hc, if_pos hc]
        congr 1
        exact ih k (rest.dropWhile isWordChar)
          (le_trans (List.dropWhile_suffix _).sublist.length_le (by omega))
          (le_trans (List.dropWhile_suffix _).sublist.length_le (by omega))
      · rw [if_neg hc, if_neg hc]
        exact ih k rest (by omega) (by omega)

theorem wordBlocks_cons (c : Char) (rest : List Char) :
    wordBlocks (c :: rest)
      = if isWordChar c then (c :: rest.takeWhile isWordChar)
          :: wordBlocks (rest.dropWhile isWordChar)
        else wordBlocks rest := by
  show wordBlocksF (rest.length + 1) (c :: rest) = _
  show (if isWordChar c then (c :: rest.takeWhile isWordChar)
        :: wordBlocksF rest.length (rest.dropWhile isWordChar)
      else wordBlocksF rest.length rest) = _
  by_cases hc : isWordChar c = true
  · rw [if_pos hc, if_pos hc]
    congr 1
    exact wordBlocksF_fuel rest.length _ _
      (List.dropWhile_suffix _).sublist.length_le le_rfl
  · rw [if_neg hc, if_neg hc]
    rfl

theorem findallRunsF_fuel : ∀ (f1 f2 : ℕ) (prev : Option Char) (l : List Char),
    l.length ≤ f1 → l.length ≤ f2 →
    findallRunsF f1 prev l = findallRunsF f2 prev l := by
  intro f1
  induction f1 with
  | zero =>
    intro f2 prev l hl _
    have h0 : l = [] := List.length_eq_zero.mp (by omega)
    subst h0
    cases f2 <;> rfl
  | succ f ih =>
    intro f2 prev l hl hl2
    cases l with
    | nil => cases f2 <;> rfl
    | cons c rest =>
      obtain ⟨k, rfl⟩ : ∃ k, f2 = k + 1 := ⟨f2 - 1, by simp at hl2; omega⟩
      simp only [List.length_cons] at hl hl2
      show (if isLowerAlpha c then _ else findallRunsF f (some c) rest)
        = (if isLowerAlpha c then _ else findallRunsF k (some c) rest)
      by_cases hc : isLowerAlpha c = true
      · rw [if_pos hc, if_pos hc]
        congr 1
        exact ih k (some c) (rest.dropWhile isLowerAlpha)
          (le_trans (List.dropWhile_suffix _).sublist.length_le (by omega))
          (le_trans (List.dropWhile_suffix _).sublist.length_le (by omega))
      · rw [if_neg hc, if_neg hc]
        exact ih k (some c) rest (by omega) (by omega)

theorem findallRuns_cons (prev : Option Char) (c : Char) (rest : List Char) :
    findallRuns prev (c :: rest)
      = if isLowerAlpha c then
          (if (!prevWord prev)
              && (match (rest.dropWhile isLowerAlpha).head? with
                  | none => true
                  | some n => !isWordChar n)
            then [c :: rest.takeWhile isLowerAlpha] else [])
          ++ findallRuns (some c) (rest.dropWhile isLowerAlpha)
        else findallRuns (some c) rest := by
  have hfuel1 : findallRunsF rest.length (some c) (rest.dropWhile isLowerAlpha)
      = findallRuns (some c) (rest.dropWhile isLowerAlpha) :=
    findallRunsF_fuel rest.length (rest.dropWhile isLowerAlpha).length (some c)
      (rest.dropWhile isLowerAlpha)
      (List.dropWhile_suffix _).sublist.length_le le_rfl
  have hfuel2 : findallRunsF rest.length (some c) rest
      = findallRuns (some c) rest :=
    findallRunsF_fuel rest.length rest.length (some c) rest le_rfl le_rfl
  have hbody : findallRuns prev (c :: rest)
      = (if isLowerAlpha c then
          (if (match prev with
                | none => true
                | some p => !isWordChar p)
              && (match (rest.dropWhile isLowerAlpha).head? with
                  | none => true
                  | some n => !isWordChar n)
            then [c :: rest.takeWhile isLowerAlpha] else [])
          ++ findallRunsF rest.length (some c) (rest.dropWhile isLowerAlpha)
        else findallRunsF rest.length (some c) rest) := rfl
  rw [hbody, hfuel1, hfuel2]
  cases prev <;> rfl

theorem dropWhile_head_false {p : Char → Bool} :
    ∀ (l : List Char) (d : Char) (rest2 : List Char),
    l.dropWhile p = d :: rest2 → p d = false := by
  intro l
  induction l with
  | nil =>
    intro d rest2 h
    exact absurd h (by simp)
  | cons c rest ih =>
    intro d rest2 h
    by_cases hc : p c = true
    · rw [List.dropWhile_cons, if_pos hc] at h
      exact ih d rest2 h
    · have hc2 : p c = false := by
        cases h2 : p c
        · rfl
        · exact absurd h2 hc
      rw [List.dropWhile_cons, if_neg (by simp [hc2])] at h
      cases h
      exact hc2
theorem goodBlocks_nil : goodBlocks [] = [] := rfl

theorem goodBlocks_cons_word {c : Char} (rest : List Char)
    (hcw : isWordChar c = true) :
    goodBlocks (c :: rest)
      = (if (c :: rest.takeWhile isWordChar).all isLowerAlpha
          then [c :: rest.takeWhile isWordChar] else [])
        ++ goodBlocks (rest.dropWhile isWordChar) := by
  unfold goodBlocks
  rw [wordBlocks_cons, if_pos hcw]
  simp only [List.filter_cons]
  by_cases hall : (c :: rest.takeWhile isWordChar).all isLowerAlpha = true
  · rw [if_pos hall, if_pos hall, List.singleton_append]
  · rw [if_neg hall, if_neg hall, List.nil_append]

theorem goodBlocks_cons_nonword {c : Char} (rest : List Char)
    (hcw : isWordChar c = false) :
    goodBlocks (c :: rest) = goodBlocks rest := by
  unfold goodBlocks
  rw [wordBlocks_cons, if_neg (by simp [hcw])]

/-- The regex scanner agrees with the all-lowercase word-block selection:
after a word character the current block is skipped, from a fresh boundary
the blocks line up one for one. -/
theorem scan_eq : ∀ (n : ℕ) (l : List Char), l.length ≤ n → ∀ prev : Option Char,
    findallRuns prev l
      = goodBlocks (if prevWord prev then l.dropWhile isWordChar else l) := by
  intro n
  induction n with
  | zero =>
    intro l hl prev
    have h0 : l = [] := List.length_eq_zero.mp (by omega)
    subst h0
    cases hp : prevWord prev <;> rfl
  | succ n ih =>
    intro l hl prev
    cases l with
    | nil => cases hp : prevWord prev <;> rfl
    | cons c rest =>
      simp only [List.length_cons] at hl
      rw [findallRuns_cons]
      have hD : (rest.dropWhile isLowerAlpha).length ≤ n :=
        le_trans (List.dropWhile_suffix _).sublist.length_le (by omega)
      have hrest : rest.length ≤ n := by omega
      by_cases hc : isLowerAlpha c = true
      · rw [if_pos hc]
        have hcw := lower_imp_word hc
        have hpc : prevWord (some c) = true := hcw
        by_cases hp : prevWord prev = true
        · rw [hp]
          simp only [Bool.not_true, Bool.false_and]
          rw [if_neg (show ¬(false = true) by decide), List.nil_append,
            if_pos trivial]
          rw [ih _ hD (some c), hpc, if_pos (Eq.refl true)]
          congr 1
          rw [List.dropWhile_cons, if_pos hcw]
          exact (dropWhile_word_split rest).symm
        · have hp2 : prevWord prev = false := by
            cases h2 : prevWord prev
            · rfl
            · exact absurd h2 hp
          rw [hp2]
          simp only [Bool.not_false, Bool.true_and]
          rw [if_neg (show ¬(false = true) by decide)]
          cases hDs : rest.dropWhile isLowerAlpha with
          | nil =>
            show [c :: rest.takeWhile isLowerAlpha] = goodBlocks (c :: rest)
            have htw : rest.takeWhile isWordChar = rest.takeWhile isLowerAlpha := by
              rw [takeWhile_word_split rest, hDs, List.takeWhile_nil,
                List.append_nil]
            have hdw0 : rest.dropWhile isWordChar = [] := by
              rw [dropWhile_word_split rest, hDs, List.dropWhile_nil]
            have hall : (c :: rest.takeWhile isWordChar).all isLowerAlpha
                = true := by
              rw [htw]
              simp only [List.all_cons, Bool.and_eq_true]
              exact ⟨hc, takeWhile_lower_all rest⟩
            rw [goodBlocks_cons_word rest hcw, if_pos hall, hdw0, htw,
              goodBlocks_nil, List.append_nil]
          | cons d D2 =>
            have hdl : isLowerAlpha d = false := dropWhile_head_false rest d D2 hDs
            rw [hDs] at hD
            by_cases hdw : isWordChar d = true
            · show (if (!isWordChar d) = true
                  then [c :: rest.takeWhile isLowerAlpha]
                  else ([] : List (List Char)))
                  ++ findallRuns (some c) (d :: D2) = goodBlocks (c :: rest)
              rw [hdw, if_neg (show ¬((!true) = true) by decide),
                List.nil_append]
              rw [ih _ hD (some c), hpc, if_pos (Eq.refl true)]
              have hall : (c :: rest.takeWhile isWordChar).all isLowerAlpha
                  = false := by
                rw [takeWhile_word_split rest, hDs, List.takeWhile_cons,
                  if_pos hdw]
                simp [hdl]
              rw [goodBlocks_cons_word rest hcw, if_neg (by simp [hall]),
                List.nil_append]
              congr 1
              rw [dropWhile_word_split rest, hDs]
            · have hdw2 : isWordChar d = false := by
                cases h2 : isWordChar d
                · rfl
                · exact absurd h2 hdw
              show (if (!isWordChar d) = true
                  then [c :: rest.takeWhile isLowerAlpha]
                  else ([] : List (List Char)))
                  ++ findallRuns (some c) (d :: D2) = goodBlocks (c :: rest)
              rw [hdw2, if_pos (show (!false) = true by decide)]
              rw [ih _ hD (some c), hpc, if_pos (Eq.refl true)]
              have hdd : (d :: D2).dropWhile isWordChar = d :: D2 := by
                rw [List.dropWhile_cons, if_neg (by simp [hdw2])]
              rw [hdd]
              have htw : rest.takeWhile isWordChar = rest.takeWhile isLowerAlpha := by
                rw [takeWhile_word_split rest, hDs, List.takeWhile_cons,
                  if_neg (by simp [hdw2]), List.append_nil]
              have hdwr : rest.dropWhile isWordChar = d :: D2 := by
                rw [dropWhile_word_split rest, hDs, List.dropWhile_cons,
                  if_neg (by simp [hdw2])]
              have hall : (c :: rest.takeWhile isWordChar).all isLowerAlpha
                  = true := by
                rw [htw]
                simp only [List.all_cons, Bool.and_eq_true]
                exact ⟨hc, takeWhile_lower_all rest⟩
              rw [goodBlocks_cons_word rest hcw, if_pos hall, hdwr, htw]
      · rw [if_neg hc]
        have hc2 : isLowerAlpha c = false := by
          cases h2 : isLowerAlpha c
          · rfl
          · exact absurd h2 hc
        rw [ih _ hrest (some c)]
        by_cases hcw : isWordChar c = true
        · have hpc : prevWord (some c) = true := hcw
          rw [hpc, if_pos (Eq.refl true)]
          by_cases hp : prevWord prev = true
          · rw [hp, if_pos (Eq.refl true)]
            congr 1
            rw [List.dropWhile_cons, if_pos hcw]
          · have hp2 : prevWord prev = false := by
              cases h2 : prevWord prev
              · rfl
              · exact absurd h2 hp
            rw [hp2, if_neg (show ¬(false = true) by decide)]
            have hall : (c :: rest.takeWhile isWordChar).all isLowerAlpha
                = false := by
              simp [hc2]
            rw [goodBlocks_cons_word rest hcw, if_neg (by simp [hall]),
              List.nil_append]
        · have hcw2 : isWordChar c = false := by
            cases h2 : isWordChar c
            · rfl
            · exact absurd h2 hcw
          have hpc2 : prevWord (some c) = false := hcw2
          rw [hpc2, if_neg (show ¬(false = true) by decide)]
          by_cases hp : prevWord prev = true
          · rw [hp, if_pos (Eq.refl true), List.dropWhile_cons,
              if_neg (by simp [hcw2]), goodBlocks_cons_nonword rest hcw2]
          · have hp2 : prevWord prev = false := by
              cases h2 : prevWord prev
              · rfl
              · exact absurd h2 hp
            rw [hp2, if_neg (show ¬(false = true) by decide),
              goodBlocks_cons_nonword rest hcw2]



/-- From a fresh start (no preceding character) the scanner's runs are
exactly the all-lowercase word blocks, so `extract_keywords` computes the
amended tokenization. -/
theorem extract_keywords_eq_amended : ∀ s : String,
    extract_keywords s = spec_keywords_amended s := by
  intro s
  have h := scan_eq (s.data.map Char.toLower).length (s.data.map Char.toLower)
    le_rfl none
  rw [show prevWord none = false from rfl] at h
  rw [if_neg (show ¬(false = true) by decide)] at h
  simp only [extract_keywords, spec_keywords_amended]
  rw [h]
  rfl

/-- C2 counterexample: the specification says digits are token separators,
so its algorithm extracts "python" from "python3"; the code's regex demands
a word boundary on both sides of the letter run, so the `3` kills the
whole token and `extract_keywords "python3"` is empty. -/
theorem C2_counterexample :
    extract_keywords "python3" = []
    ∧ spec_keywords "python3" = ["python"] := by
  constructor
  · with_unfolding_all decide
  · with_unfolding_all decide

set_option maxRecDepth 100000 in
/-- C2 (amended): `extract_keywords` lower-cases the input and tokenizes by
maximal word-character blocks, keeping a block exactly when it consists
purely of lowercase letters (blocks containing a digit or underscore are
dropped whole); surviving tokens are filtered by length at least 3 and the
stop-word set, with duplicates preserved in order, and
`extract_keywords "Python PYTHON python"` is three times "python". -/
theorem C2_tokenization :
    (∀ s : String, extract_keywords s = spec_keywords_amended s)
    ∧ extract_keywords "Python PYTHON python" = ["python", "python", "python"] := by
  constructor
  · exact extract_keywords_eq_amended
  · with_unfolding_all decide

end AppSpec
